import Mathlib

/-!
Verification of the completion-tree builder (`tree_builder.py`).

The module builds a prefix tree (`CompletionTree` of `TreeNode`s) from a batch
of token-id sequences ("completions") with optional per-completion scores,
then runs two post-order passes: structural fingerprinting
(`_compute_structural_hashes` / `_stable_hash`) and descendant-leaf statistics
(`_compute_leaf_stats`), and exposes the query `get_node_score_percentage`.

Modelling conventions:
* token ids are integers; the root carries the distinguished sentinel
  (the string "ROOT" in the source), modelled by the `Token` variant type;
* scores (Python floats) are modelled as exact rationals `ℚ`;
* Python dicts preserve insertion order, so `children` is an
  association list ordered by first insertion of each key;
* the fingerprint pass recurses into every child unconditionally, so the
  `structural_hash` field it stores in a node is exactly the pure function
  `computeStructuralHashes` of that node's subtree (each node has a unique
  parent, so no sharing interferes);
* the statistics pass `_compute_leaf_stats` treats a terminal node as a
  pure base case and does NOT recurse into its children, so a node strictly
  below a terminal node is never visited and keeps the `(0, 0.0)` that
  `TreeNode.__init__` put into `descendant_leaf_count` /
  `descendant_score_sum`.  The stored statistics fields are therefore
  modelled per path by `storedStats` (the pure `computeLeafStats` at nodes
  the pass reaches, `(0, 0)` below a terminal node), with `statsReached`
  modelling which nodes the pass visits;
* `_stable_hash(value)` is `hash(json.dumps(value, sort_keys=True))` in the
  source: a process-fixed function of the serialized component tuple.
  `json.dumps` is injective on the component tuples that occur (tuples of an
  int-or-sentinel token, a bool, an optional score, and a list of
  (int, int) pairs have pairwise distinct canonical JSON texts), so the
  composite is modelled as a function parameter `sh : HashComponents → Int`;
  CPython salts string hashing per process, which is modelled by quantifying
  over `sh`, and collision-freedom of the hash is an explicit hypothesis
  (`Function.Injective sh`) where a property needs it.
-/

/-- Token identity of a node: the root sentinel (the string "ROOT" in the
source) or an integer token id. -/
inductive Token where
  | root
  | id (n : Int)
deriving DecidableEq

/-- A node of the prefix tree, mirroring `TreeNode.__init__`: token id,
unique id, insertion-ordered child map, end-of-completion flag, optional
score, and traversal count.  The derived fields (`structural_hash`,
`descendant_leaf_count`, `descendant_score_sum`) are modelled as the pure
pass functions below. -/
inductive TreeNode where
  | mk (token_id : Token) (unique_id : Nat) (children : List (Int × TreeNode))
      (is_end_of_completion : Bool) (score : Option ℚ) (count : Nat)

def TreeNode.token_id : TreeNode → Token
  | .mk t _ _ _ _ _ => t

def TreeNode.unique_id : TreeNode → Nat
  | .mk _ u _ _ _ _ => u

def TreeNode.children : TreeNode → List (Int × TreeNode)
  | .mk _ _ cs _ _ _ => cs

def TreeNode.is_end_of_completion : TreeNode → Bool
  | .mk _ _ _ e _ _ => e

def TreeNode.score : TreeNode → Option ℚ
  | .mk _ _ _ _ s _ => s

def TreeNode.count : TreeNode → Nat
  | .mk _ _ _ _ _ c => c

/-- Lookup `token_id in node.children` / `node.children[token_id]`. -/
def lookupChild : List (Int × TreeNode) → Int → Option TreeNode
  | [], _ => none
  | (k, c) :: rest, t => if k = t then some c else lookupChild rest t

/-- In-place update of an existing key of the (insertion-ordered) dict. -/
def setChild : List (Int × TreeNode) → Int → TreeNode → List (Int × TreeNode)
  | [], _, _ => []
  | (k, c) :: rest, t, c' => if k = t then (k, c') :: rest else (k, c) :: setChild rest t c'

/-- `node.count += 1`. -/
def TreeNode.bump : TreeNode → TreeNode
  | .mk t u cs e s c => .mk t u cs e s (c + 1)

/-- `TreeNode(token_id, self._get_next_id())`: a fresh child node. -/
def newChild (tok : Int) (uid : Nat) : TreeNode := .mk (.id tok) uid [] false none 0

/-- One iteration of the `for i, tokens in enumerate(completions)` loop of
`_build_tree`: walk from `node` along `tokens`, creating or reusing children
and incrementing each visited child's count; mark the final node terminal;
`assign = some v` means the completion's index is within the score array and
sets `node.score = v`, `assign = none` (no score array, or index out of
bounds) leaves the score field untouched.  The unique-id counter is threaded
explicitly (`self._next_id`). -/
def insertCompletion : TreeNode → List Int → Option ℚ → Nat → TreeNode × Nat
  | .mk t u cs _ s c, [], assign, ctr =>
      (.mk t u cs true (match assign with | some v => some v | none => s) c, ctr)
  | .mk t u cs e s c, tok :: rest, assign, ctr =>
      match lookupChild cs tok with
      | some child =>
          let r := insertCompletion child.bump rest assign ctr
          (.mk t u (setChild cs tok r.1) e s c, r.2)
      | none =>
          let r := insertCompletion (newChild tok ctr).bump rest assign (ctr + 1)
          (.mk t u (cs ++ [(tok, r.1)]) e s c, r.2)

/-- Score available for the completion at the head of the remaining list:
`scores[i]` when `scores is not None and i < len(scores)`. -/
def headScore : Option (List ℚ) → Option ℚ
  | some (v :: _) => some v
  | _ => none

def tailScores : Option (List ℚ) → Option (List ℚ)
  | some l => some l.tail
  | none => none

/-- The completion loop of `_build_tree`, consuming completions and the score
list in lockstep (completion `i` is scored iff `i < len(scores)`). -/
def insertAll : TreeNode → List (List Int) → Option (List ℚ) → Nat → TreeNode × Nat
  | n, [], _, ctr => (n, ctr)
  | n, c :: cs, ss, ctr =>
      let r := insertCompletion n c (headScore ss) ctr
      insertAll r.1 cs (tailScores ss) r.2

/-- The tree object: root node, `has_scores = scores is not None`, and the
final value of the unique-id counter. -/
structure CompletionTree where
  root : TreeNode
  has_scores : Bool
  next_id : Nat

/-- `CompletionTree.__init__` / `_build_tree`: the root is created with the
"ROOT" sentinel, unique id 0 and `count = len(completions)`, then every
completion is inserted. -/
def buildTree (completions : List (List Int)) (scores : Option (List ℚ)) : CompletionTree :=
  let r := insertAll (.mk .root 0 [] false none completions.length) completions scores 1
  ⟨r.1, scores.isSome, r.2⟩

/-- The component tuple hashed by `_compute_structural_hashes`:
`(node.token_id, node.is_end_of_completion,
  node.score if node.is_end_of_completion else None, tuple(child_hashes))`. -/
structure HashComponents where
  token : Token
  endFlag : Bool
  scoreField : Option ℚ
  childHashes : List (Int × Int)
deriving DecidableEq

/-- `sorted(node.children.items())`: Python sorts the (token, child) pairs by
token id ascending (dict keys are pairwise distinct, so the comparison never
reaches the second component). -/
def sortByTokenId {α : Type} (l : List (Int × α)) : List (Int × α) :=
  List.insertionSort (fun a b => a.1 ≤ b.1) l

mutual
/-- `_compute_structural_hashes`: post-order fingerprint of a node, for the
process string-hash `sh` (see the module comment on `_stable_hash`).  The
source sorts the (token, child) pairs and then hashes each child in sorted
order; since the fingerprint is a pure function of the child subtree and the
sort compares token keys only, this equals hashing the children in dict
order and sorting the resulting (token, hash) pairs by token, which is the
form used here (it recurses structurally). -/
def computeStructuralHashes (sh : HashComponents → Int) : TreeNode → Int
  | .mk t _ cs e s _ => sh ⟨t, e, if e then s else none, sortByTokenId (childHashList sh cs)⟩

/-- The `(token_id, child_hash)` list of `_compute_structural_hashes`, in
child (dict) order. -/
def childHashList (sh : HashComponents → Int) : List (Int × TreeNode) → List (Int × Int)
  | [] => []
  | (k, c) :: rest => (k, computeStructuralHashes sh c) :: childHashList sh rest
end

/-- The canonical content of a subtree under the fingerprint rule of the
spec (§4.2): own token value, terminal flag, score only if terminal, and the
list of (child token, child canonical content) pairs ordered by token value
ascending.  Two subtrees are structurally indistinguishable exactly when
their canonical contents are equal. -/
inductive CanonTree where
  | mk (token : Token) (endFlag : Bool) (scoreField : Option ℚ)
      (children : List (Int × CanonTree))

mutual
/-- Canonicalization of a node under the fingerprint rule. -/
def canon : TreeNode → CanonTree
  | .mk t _ cs e s _ => .mk t e (if e then s else none) (sortByTokenId (canonChildren cs))

def canonChildren : List (Int × TreeNode) → List (Int × CanonTree)
  | [] => []
  | (k, c) :: rest => (k, canon c) :: canonChildren rest
end

mutual
/-- The fingerprint determined by canonical content alone (children already
sorted): the bridge between `computeStructuralHashes` and `canon`. -/
def hashCanon (sh : HashComponents → Int) : CanonTree → Int
  | .mk t e s cs => sh ⟨t, e, s, hashCanonChildren sh cs⟩

def hashCanonChildren (sh : HashComponents → Int) : List (Int × CanonTree) → List (Int × Int)
  | [] => []
  | (k, c) :: rest => (k, hashCanon sh c) :: hashCanonChildren sh rest
end

mutual
/-- The pair `_compute_leaf_stats(node)` computes and returns: if the node
is terminal it is a pure base case contributing `(1, its score or 0)` —
its children are NOT recursed into; otherwise the element-wise sum of the
children's statistics, accumulated left to right over the child dict.
This is the value the pass stores into a node it reaches; nodes strictly
below a terminal node are never reached (see `storedStats`). -/
def computeLeafStats : TreeNode → Nat × ℚ
  | .mk _ _ cs e s _ =>
      if e then (1, match s with | some v => v | none => 0) else sumChildStats (0, 0) cs

def sumChildStats : Nat × ℚ → List (Int × TreeNode) → Nat × ℚ
  | acc, [] => acc
  | acc, (_, c) :: rest =>
      let st := computeLeafStats c
      sumChildStats (acc.1 + st.1, acc.2 + st.2) rest
end

/-- `node.descendant_leaf_count` as computed by `_compute_leaf_stats` for
this node — the value stored into the field when (and only when) the pass
reaches the node; a node strictly below a terminal node keeps the
initialized 0 instead (see `storedStats`). -/
def TreeNode.descendant_leaf_count (n : TreeNode) : Nat := (computeLeafStats n).1

/-- `node.descendant_score_sum` as computed by `_compute_leaf_stats` for
this node — stored into the field only when the pass reaches the node; a
node strictly below a terminal node keeps the initialized 0.0 instead (see
`storedStats`). -/
def TreeNode.descendant_score_sum (n : TreeNode) : ℚ := (computeLeafStats n).2

/-- `get_node_score_percentage(node)` for a node whose stored statistics
fields agree with `computeLeafStats` — faithful exactly at nodes the
statistics pass reaches, in particular the root (`storedStats t.root [] =
computeLeafStats t.root` definitionally).  `get_node_score_percentage_at`
below models the query for an arbitrary node of a built tree through its
actual stored fields. -/
def get_node_score_percentage (t : CompletionTree) (n : TreeNode) : Option ℚ :=
  if t.has_scores = false ∨ n.descendant_leaf_count = 0 then none
  else some (n.descendant_score_sum / (n.descendant_leaf_count : ℚ))

/-- Does `_compute_leaf_stats`, started at `n` (the code calls it once, on
the root), reach the node at the given path?  The pass recurses into
children only from a non-terminal node, so exactly the nodes with no
terminal proper ancestor are reached. -/
def statsReached : TreeNode → List Int → Bool
  | _, [] => true
  | n, t :: p =>
      if n.is_end_of_completion then false
      else
        match lookupChild n.children t with
        | some c => statsReached c p
        | none => false

/-- The `(descendant_leaf_count, descendant_score_sum)` fields stored at
the node at the given path after `_compute_leaf_stats` runs from `n`: a
reached node stores the pair the call on it returns (`computeLeafStats`),
and a node strictly below a terminal node is never visited, keeping the
`(0, 0.0)` from `TreeNode.__init__` (also the default for absent paths). -/
def storedStats : TreeNode → List Int → Nat × ℚ
  | n, [] => computeLeafStats n
  | n, t :: p =>
      if n.is_end_of_completion then (0, 0)
      else
        match lookupChild n.children t with
        | some c => storedStats c p
        | none => (0, 0)

/-- `get_node_score_percentage` applied to the node at a path of the built
tree, reading the node's actual stored statistics fields (`storedStats`). -/
def get_node_score_percentage_at (t : CompletionTree) (p : List Int) : Option ℚ :=
  if t.has_scores = false ∨ (storedStats t.root p).1 = 0 then none
  else some ((storedStats t.root p).2 / ((storedStats t.root p).1 : ℚ))

mutual
/-- Depth of the call stack used by either recursive post-order pass when
started at a node: one frame for the node plus the deepest child. -/
def passDepth : TreeNode → Nat
  | .mk _ _ cs _ _ _ => 1 + childrenDepth cs

def childrenDepth : List (Int × TreeNode) → Nat
  | [] => 0
  | (_, c) :: rest => max (passDepth c) (childrenDepth rest)
end

/-- Follow a path of token ids from a node. -/
def nodeAt : TreeNode → List Int → Option TreeNode
  | n, [] => some n
  | n, t :: p =>
      match lookupChild n.children t with
      | some c => nodeAt c p
      | none => none

/-- Count stored at a path (0 if the path is absent). -/
def countAt (n : TreeNode) (p : List Int) : Nat :=
  ((nodeAt n p).map TreeNode.count).getD 0

/-- Terminal flag stored at a path (false if the path is absent). -/
def endAt (n : TreeNode) (p : List Int) : Bool :=
  ((nodeAt n p).map TreeNode.is_end_of_completion).getD false

/-- Score stored at a path (none if the path is absent). -/
def scoreAt (n : TreeNode) (p : List Int) : Option ℚ :=
  ((nodeAt n p).map TreeNode.score).getD none

/-- Child keys of the node at a path (empty if the path is absent). -/
def keysAt (n : TreeNode) (p : List Int) : List Int :=
  ((nodeAt n p).map (fun m => m.children.map Prod.fst)).getD []

/-- The completions paired with the score each one receives, in insertion
order: completion `i` is paired with `some (scores[i])` iff
`scores is not None and i < len(scores)`. -/
def assignedScores : List (List Int) → Option (List ℚ) → List (List Int × Option ℚ)
  | [], _ => []
  | c :: cs, ss => (c, headScore ss) :: assignedScores cs (tailScores ss)

/-- The score left at the termination node of path `p` after processing the
listed (completion, score) pairs in order: each scored completion equal to
`p` overwrites, each unscored one leaves the previous value. -/
def lastAssigned (p : List Int) (l : List (List Int × Option ℚ)) : Option ℚ :=
  l.foldl
    (fun acc ca =>
      if ca.1 = p then (match ca.2 with | some v => some v | none => acc) else acc)
    none

/-- Token as an optional integer (root ↦ none), used to build a concrete
injective component hash for witnesses. -/
def Token.toOptInt : Token → Option Int
  | .root => none
  | .id n => some n

/-- A concrete injective instantiation of the component hash, standing in
for a collision-free process string-hash over the canonical serialization. -/
def shWitness (h : HashComponents) : Int :=
  Encodable.encode (h.token.toOptInt, h.endFlag, h.scoreField, h.childHashes)

-- Sanity examples on the scenario of spec §8 (not claims, just checks).
example : (buildTree [[1, 2, 3], [1, 2, 4], [1, 5]] none).root.count = 3 := rfl
example : countAt (buildTree [[1, 2, 3], [1, 2, 4], [1, 5]] none).root [1] = 3 := rfl
example : countAt (buildTree [[1, 2, 3], [1, 2, 4], [1, 5]] none).root [1, 2] = 2 := rfl
example : endAt (buildTree [[1, 2, 3], [1, 2, 4], [1, 5]] none).root [1, 2, 3] = true := rfl
example :
    ((nodeAt (buildTree [[1, 2, 3], [1, 2, 4], [1, 5]] none).root
      [1, 2]).map TreeNode.descendant_leaf_count).getD 0 = 2 := rfl

/-! ### Basic lemmas -/

@[simp] theorem TreeNode.token_id_mk (t u cs e s c) :
    (TreeNode.mk t u cs e s c).token_id = t := rfl

@[simp] theorem TreeNode.unique_id_mk (t u cs e s c) :
    (TreeNode.mk t u cs e s c).unique_id = u := rfl

@[simp] theorem TreeNode.children_mk (t u cs e s c) :
    (TreeNode.mk t u cs e s c).children = cs := rfl

@[simp] theorem TreeNode.is_end_of_completion_mk (t u cs e s c) :
    (TreeNode.mk t u cs e s c).is_end_of_completion = e := rfl

@[simp] theorem TreeNode.score_mk (t u cs e s c) :
    (TreeNode.mk t u cs e s c).score = s := rfl

@[simp] theorem TreeNode.count_mk (t u cs e s c) :
    (TreeNode.mk t u cs e s c).count = c := rfl

/-- Strong induction over the nested tree type: to prove a property of a
node it suffices to prove it assuming it for every child. -/
theorem TreeNode.strongInd {P : TreeNode → Prop}
    (ih : ∀ t u cs e s c, (∀ kc ∈ cs, P kc.2) → P (.mk t u cs e s c)) : ∀ n, P n
  | .mk t u cs e s c => by
    refine ih t u cs e s c ?_
    intro kc hkc
    exact TreeNode.strongInd ih kc.2
termination_by n => sizeOf n
decreasing_by
  have h1 : sizeOf kc < sizeOf cs := List.sizeOf_lt_of_mem hkc
  obtain ⟨x, y⟩ := kc
  simp at h1 ⊢
  omega

/-- Strong induction over canonical trees. -/
theorem CanonTree.canonStrongInd {P : CanonTree → Prop}
    (ih : ∀ t e s cs, (∀ kc ∈ cs, P kc.2) → P (.mk t e s cs)) : ∀ n, P n
  | .mk t e s cs => by
    refine ih t e s cs ?_
    intro kc hkc
    exact CanonTree.canonStrongInd ih kc.2
termination_by n => sizeOf n
decreasing_by
  have h1 : sizeOf kc < sizeOf cs := List.sizeOf_lt_of_mem hkc
  obtain ⟨x, y⟩ := kc
  simp at h1 ⊢
  omega

/-! ### Sorting by token id -/

theorem sortByTokenId_perm {α : Type} (l : List (Int × α)) :
    (sortByTokenId l).Perm l :=
  List.perm_insertionSort _ l

theorem sortByTokenId_sorted {α : Type} (l : List (Int × α)) :
    (sortByTokenId l).Sorted (fun a b => a.1 ≤ b.1) := by
  haveI : IsTotal (Int × α) (fun a b => a.1 ≤ b.1) := ⟨fun a b => le_total a.1 b.1⟩
  haveI : IsTrans (Int × α) (fun a b => a.1 ≤ b.1) := ⟨fun a b c h1 h2 => le_trans h1 h2⟩
  exact List.sorted_insertionSort _ l

theorem orderedInsert_map_snd {α β : Type} (f : Int × α → β) (a : Int × α)
    (l : List (Int × α)) :
    List.orderedInsert (fun x y => x.1 ≤ y.1) (a.1, f a) (l.map (fun kc => (kc.1, f kc))) =
      (List.orderedInsert (fun x y => x.1 ≤ y.1) a l).map (fun kc => (kc.1, f kc)) := by
  induction l with
  | nil => simp [List.orderedInsert]
  | cons hd tl ih =>
      simp only [List.map_cons, List.orderedInsert]
      by_cases h : a.1 ≤ hd.1 <;> simp [h, ih]

/-- Sorting by token id commutes with mapping the second component (the
comparison reads only the keys, which the map preserves). -/
theorem sortByTokenId_map_snd {α β : Type} (f : Int × α → β) (l : List (Int × α)) :
    sortByTokenId (l.map (fun kc => (kc.1, f kc))) =
      (sortByTokenId l).map (fun kc => (kc.1, f kc)) := by
  induction l with
  | nil => rfl
  | cons hd tl ih =>
      simp only [sortByTokenId, List.insertionSort, List.map_cons] at *
      rw [ih]
      exact orderedInsert_map_snd f hd _

/-- Two lists of keyed pairs that are permutations of each other with
pairwise-distinct keys sort to the same list. -/
theorem sortByTokenId_eq_of_perm {α : Type} (l1 l2 : List (Int × α))
    (hperm : l1.Perm l2) (hnd : (l1.map Prod.fst).Nodup) :
    sortByTokenId l1 = sortByTokenId l2 := by
  have hp : (sortByTokenId l1).Perm (sortByTokenId l2) :=
    (sortByTokenId_perm l1).trans (hperm.trans (sortByTokenId_perm l2).symm)
  have hnd1 : ((sortByTokenId l1).map Prod.fst).Nodup :=
    (((sortByTokenId_perm l1).map Prod.fst).nodup_iff).mpr hnd
  have hnd2 : ((sortByTokenId l2).map Prod.fst).Nodup :=
    ((hp.map Prod.fst).nodup_iff).mp hnd1
  have hs1 : (sortByTokenId l1).Sorted (fun a b => a.1 < b.1) := by
    have := sortByTokenId_sorted l1
    have hne : (sortByTokenId l1).Pairwise (fun a b => a.1 ≠ b.1) :=
      (List.pairwise_map).mp hnd1
    exact (this.and hne).imp (fun h => lt_of_le_of_ne h.1 h.2)
  have hs2 : (sortByTokenId l2).Sorted (fun a b => a.1 < b.1) := by
    have := sortByTokenId_sorted l2
    have hne : (sortByTokenId l2).Pairwise (fun a b => a.1 ≠ b.1) :=
      (List.pairwise_map).mp hnd2
    exact (this.and hne).imp (fun h => lt_of_le_of_ne h.1 h.2)
  haveI : IsAntisymm (Int × α) (fun a b => a.1 < b.1) :=
    ⟨fun a b h1 h2 => absurd h2 (lt_asymm h1)⟩
  exact List.eq_of_perm_of_sorted hp hs1 hs2

/-! ### The fingerprint pass factors through canonical content -/

theorem canonChildren_eq_map (cs : List (Int × TreeNode)) :
    canonChildren cs = cs.map (fun kc => (kc.1, canon kc.2)) := by
  induction cs with
  | nil => rfl
  | cons kc rest ih => obtain ⟨k, c⟩ := kc; simp [canonChildren, ih]

theorem childHashList_eq_map (sh : HashComponents → Int) (cs : List (Int × TreeNode)) :
    childHashList sh cs = cs.map (fun kc => (kc.1, computeStructuralHashes sh kc.2)) := by
  induction cs with
  | nil => rfl
  | cons kc rest ih => obtain ⟨k, c⟩ := kc; simp [childHashList, ih]

theorem hashCanonChildren_eq_map (sh : HashComponents → Int) (cs : List (Int × CanonTree)) :
    hashCanonChildren sh cs = cs.map (fun kc => (kc.1, hashCanon sh kc.2)) := by
  induction cs with
  | nil => rfl
  | cons kc rest ih => obtain ⟨k, c⟩ := kc; simp [hashCanonChildren, ih]

/-- The fingerprint of a node is determined by its canonical content. -/
theorem computeStructuralHashes_eq_hashCanon (sh : HashComponents → Int) (n : TreeNode) :
    computeStructuralHashes sh n = hashCanon sh (canon n) := by
  induction n using TreeNode.strongInd with
  | ih t u cs e s c ih =>
      simp only [computeStructuralHashes, canon, hashCanon]
      congr 1
      simp only [HashComponents.mk.injEq, true_and]
      rw [childHashList_eq_map, hashCanonChildren_eq_map, canonChildren_eq_map]
      have hmaps : cs.map (fun kc => (kc.1, computeStructuralHashes sh kc.2)) =
          cs.map (fun kc => (kc.1, hashCanon sh (canon kc.2))) :=
        List.map_congr_left (fun kc hkc => by rw [ih kc hkc])
      rw [hmaps]
      have h1 : cs.map (fun kc => (kc.1, hashCanon sh (canon kc.2))) =
          (cs.map (fun kc => (kc.1, canon kc.2))).map (fun kc => (kc.1, hashCanon sh kc.2)) := by
        simp [List.map_map, Function.comp]
      rw [h1]
      have h2 := sortByTokenId_map_snd (fun kc => hashCanon sh kc.2)
        (cs.map (fun kc => (kc.1, canon kc.2)))
      simpa using h2

/-- Keyed child lists whose (key, hash) images agree are equal, provided the
hash determines each listed child. -/
theorem keyedChildren_eq_of_hash_eq (sh : HashComponents → Int) :
    ∀ cs cs' : List (Int × CanonTree),
      (∀ kc ∈ cs, ∀ d, hashCanon sh kc.2 = hashCanon sh d → kc.2 = d) →
      cs.map (fun kc => (kc.1, hashCanon sh kc.2)) =
        cs'.map (fun kc => (kc.1, hashCanon sh kc.2)) →
      cs = cs'
  | [], [], _, _ => rfl
  | [], _ :: _, _, h => by simp at h
  | _ :: _, [], _, h => by simp at h
  | hd :: tl, hd' :: tl', ih, h => by
      simp only [List.map_cons, List.cons.injEq, Prod.mk.injEq] at h
      obtain ⟨⟨hk, hh⟩, hrest⟩ := h
      have hhd : hd.2 = hd'.2 := ih hd (by simp) hd'.2 hh
      have htl : tl = tl' :=
        keyedChildren_eq_of_hash_eq sh tl tl'
          (fun kc hkc d hd2 => ih kc (by simp [hkc]) d hd2) hrest
      obtain ⟨k1, v1⟩ := hd
      obtain ⟨k2, v2⟩ := hd'
      simp_all

/-- Under a collision-free component hash, a canonical fingerprint
determines the canonical content. -/
theorem hashCanon_injective (sh : HashComponents → Int) (hinj : Function.Injective sh) :
    ∀ c1 c2 : CanonTree, hashCanon sh c1 = hashCanon sh c2 → c1 = c2 := by
  intro c1
  induction c1 using CanonTree.canonStrongInd with
  | ih t e s cs ih =>
      intro c2 h
      obtain ⟨t', e', s', cs'⟩ := c2
      simp only [hashCanon] at h
      have hc := hinj h
      simp only [HashComponents.mk.injEq] at hc
      obtain ⟨ht, he, hs, hch⟩ := hc
      subst ht; subst he; subst hs
      rw [hashCanonChildren_eq_map, hashCanonChildren_eq_map] at hch
      congr 1
      exact keyedChildren_eq_of_hash_eq sh cs cs'
        (fun kc hkc d hd2 => ih kc hkc d hd2) hch

theorem Token.toOptInt_injective : Function.Injective Token.toOptInt := by
  intro a b h
  cases a <;> cases b <;> simp [Token.toOptInt] at h <;> simp [h]

/-- The concrete component hash used in witnesses is collision-free. -/
theorem shWitness_injective : Function.Injective shWitness := by
  intro a b h
  obtain ⟨t, e, s, ch⟩ := a
  obtain ⟨t', e', s', ch'⟩ := b
  simp only [shWitness] at h
  have hnat := Int.ofNat_inj.mp h
  have := Encodable.encode_injective hnat
  simp only [Prod.mk.injEq] at this
  obtain ⟨h1, h2, h3, h4⟩ := this
  have := Token.toOptInt_injective h1
  simp_all

/-- C1: for any two nodes, under a collision-free component hash (the
collision-freedom the spec assumes of `_stable_hash`), structural
fingerprints are equal if and only if the two subtrees are structurally
indistinguishable under the fingerprint rule: same token value, same
terminal flag, same score when terminal (ignored when non-terminal), and
equal token-ascending lists of (child token, child content) pairs, i.e.
equal canonical contents. -/
theorem c1_fingerprint_eq_iff_indistinguishable (sh : HashComponents → Int)
    (hinj : Function.Injective sh) (a b : TreeNode) :
    computeStructuralHashes sh a = computeStructuralHashes sh b ↔ canon a = canon b := by
  constructor
  · intro h
    apply hashCanon_injective sh hinj
    rw [← computeStructuralHashes_eq_hashCanon, ← computeStructuralHashes_eq_hashCanon]
    exact h
  · intro h
    rw [computeStructuralHashes_eq_hashCanon, computeStructuralHashes_eq_hashCanon, h]

/-- Witness for C1: the concrete injective component hash `shWitness`
discharges the collision-freedom hypothesis at two concrete built trees. -/
theorem c1_fingerprint_eq_iff_indistinguishable_witness :
    Function.Injective shWitness ∧
      (computeStructuralHashes shWitness (buildTree [[1, 2]] none).root =
          computeStructuralHashes shWitness (buildTree [[1, 3]] none).root ↔
        canon (buildTree [[1, 2]] none).root = canon (buildTree [[1, 3]] none).root) :=
  ⟨shWitness_injective,
    c1_fingerprint_eq_iff_indistinguishable shWitness shWitness_injective _ _⟩

/-! ### Child-map and path lemmas -/

@[simp] theorem TreeNode.bump_token_id (n : TreeNode) : n.bump.token_id = n.token_id := by
  obtain ⟨t, u, cs, e, s, c⟩ := n; rfl

@[simp] theorem TreeNode.bump_children (n : TreeNode) : n.bump.children = n.children := by
  obtain ⟨t, u, cs, e, s, c⟩ := n; rfl

@[simp] theorem TreeNode.bump_is_end (n : TreeNode) :
    n.bump.is_end_of_completion = n.is_end_of_completion := by
  obtain ⟨t, u, cs, e, s, c⟩ := n; rfl

@[simp] theorem TreeNode.bump_score (n : TreeNode) : n.bump.score = n.score := by
  obtain ⟨t, u, cs, e, s, c⟩ := n; rfl

@[simp] theorem TreeNode.bump_count (n : TreeNode) : n.bump.count = n.count + 1 := by
  obtain ⟨t, u, cs, e, s, c⟩ := n; rfl

theorem lookupChild_isSome_iff_mem (cs : List (Int × TreeNode)) (t : Int) :
    (lookupChild cs t).isSome ↔ t ∈ cs.map Prod.fst := by
  induction cs with
  | nil => simp [lookupChild]
  | cons kc rest ih =>
      obtain ⟨k, c⟩ := kc
      by_cases h : k = t <;> simp [lookupChild, h, ih]
      exact fun h' => absurd h'.symm h

theorem mem_of_lookupChild_eq_some (cs : List (Int × TreeNode)) (t : Int) (c : TreeNode)
    (h : lookupChild cs t = some c) : (t, c) ∈ cs := by
  induction cs with
  | nil => simp [lookupChild] at h
  | cons kc rest ih =>
      obtain ⟨k, c'⟩ := kc
      by_cases hk : k = t
      · subst hk; simp [lookupChild] at h; simp [h]
      · simp [lookupChild, hk] at h
        simp [ih h]

theorem lookupChild_eq_some_of_mem (cs : List (Int × TreeNode)) (t : Int) (c : TreeNode)
    (hnd : (cs.map Prod.fst).Nodup) (hmem : (t, c) ∈ cs) : lookupChild cs t = some c := by
  induction cs with
  | nil => simp at hmem
  | cons kc rest ih =>
      obtain ⟨k, c'⟩ := kc
      simp only [List.map_cons, List.nodup_cons] at hnd
      rcases List.mem_cons.mp hmem with h | h
      · obtain ⟨h1, h2⟩ := Prod.mk.injEq .. ▸ h
        simp_all [lookupChild]
      · have hk : k ≠ t := by
          intro hkt
          exact hnd.1 (hkt ▸ (List.mem_map.mpr ⟨(t, c), h, rfl⟩))
        simp [lookupChild, hk, ih hnd.2 h]

theorem lookupChild_setChild_self (cs : List (Int × TreeNode)) (t : Int) (c' : TreeNode)
    (h : (lookupChild cs t).isSome) : lookupChild (setChild cs t c') t = some c' := by
  induction cs with
  | nil => simp [lookupChild] at h
  | cons kc rest ih =>
      obtain ⟨k, c⟩ := kc
      by_cases hk : k = t
      · subst hk; simp [setChild, lookupChild]
      · simp [setChild, lookupChild, hk] at h ⊢
        exact ih h

theorem lookupChild_setChild_ne (cs : List (Int × TreeNode)) (t x : Int) (c' : TreeNode)
    (h : x ≠ t) : lookupChild (setChild cs t c') x = lookupChild cs x := by
  induction cs with
  | nil => simp [setChild]
  | cons kc rest ih =>
      obtain ⟨k, c⟩ := kc
      by_cases hk : k = t
      · subst hk
        have : k ≠ x := fun he => h he.symm
        simp [setChild, lookupChild, this]
      · by_cases hx : k = x <;> simp [setChild, lookupChild, hk, hx, ih, h]

theorem lookupChild_append_single (cs : List (Int × TreeNode)) (t : Int) (c' : TreeNode)
    (x : Int) :
    lookupChild (cs ++ [(t, c')]) x =
      match lookupChild cs x with
      | some c => some c
      | none => if t = x then some c' else none := by
  induction cs with
  | nil => simp [lookupChild]
  | cons kc rest ih =>
      obtain ⟨k, c⟩ := kc
      by_cases hk : k = x <;> simp [lookupChild, hk, ih]

@[simp] theorem setChild_map_fst (cs : List (Int × TreeNode)) (t : Int) (c' : TreeNode) :
    (setChild cs t c').map Prod.fst = cs.map Prod.fst := by
  induction cs with
  | nil => rfl
  | cons kc rest ih =>
      obtain ⟨k, c⟩ := kc
      by_cases hk : k = t <;> simp [setChild, hk, ih]

@[simp] theorem nodeAt_nil (n : TreeNode) : nodeAt n [] = some n := rfl

theorem nodeAt_cons (n : TreeNode) (x : Int) (p : List Int) :
    nodeAt n (x :: p) = (lookupChild n.children x).bind (fun m => nodeAt m p) := by
  obtain ⟨t, u, cs, e, s, c⟩ := n
  simp only [nodeAt, TreeNode.children_mk]
  cases lookupChild cs x <;> rfl

theorem nodeAt_append (n : TreeNode) (p q : List Int) :
    nodeAt n (p ++ q) = (nodeAt n p).bind (fun m => nodeAt m q) := by
  induction p generalizing n with
  | nil => simp
  | cons x p' ih =>
      rw [List.cons_append, nodeAt_cons, nodeAt_cons]
      cases lookupChild n.children x with
      | none => rfl
      | some m => simp [ih m]

/-- Inserting a completion leaves every node whose path is not a prefix of
the inserted token list unchanged. -/
theorem insert_nodeAt_off_path :
    ∀ (ts : List Int) (n : TreeNode) (a : Option ℚ) (ctr : Nat) (p : List Int),
      ¬(p <+: ts) → nodeAt (insertCompletion n ts a ctr).1 p = nodeAt n p
  | [], n, a, ctr, p, h => by
      obtain ⟨t, u, cs, e, s, c⟩ := n
      cases p with
      | nil => exact absurd List.nil_prefix h
      | cons x p' =>
          simp only [insertCompletion, nodeAt_cons, TreeNode.children_mk]
  | tok :: rest, n, a, ctr, p, h => by
      obtain ⟨t, u, cs, e, s, c⟩ := n
      cases p with
      | nil => exact absurd List.nil_prefix h
      | cons x p' =>
          simp only [insertCompletion]
          cases hl : lookupChild cs tok with
          | some child =>
              simp only [nodeAt_cons, TreeNode.children_mk]
              by_cases hx : x = tok
              · subst hx
                have hnp : ¬(p' <+: rest) := by
                  intro hp
                  exact h (List.cons_prefix_cons.mpr ⟨rfl, hp⟩)
                rw [lookupChild_setChild_self cs x _ (by simp [hl]), hl]
                simp only [Option.some_bind]
                rw [insert_nodeAt_off_path rest child.bump a ctr p' hnp]
                cases p' with
                | nil => exact absurd List.nil_prefix hnp
                | cons y q =>
                    rw [nodeAt_cons, nodeAt_cons, TreeNode.bump_children]
              · rw [lookupChild_setChild_ne cs tok x _ hx]
          | none =>
              simp only [nodeAt_cons, TreeNode.children_mk]
              by_cases hx : x = tok
              · subst hx
                have hnp : ¬(p' <+: rest) := by
                  intro hp
                  exact h (List.cons_prefix_cons.mpr ⟨rfl, hp⟩)
                rw [lookupChild_append_single, hl]
                simp only [if_pos rfl, if_true, Option.some_bind, Option.none_bind]
                rw [insert_nodeAt_off_path rest _ a (ctr + 1) p' hnp]
                cases p' with
                | nil => exact absurd List.nil_prefix hnp
                | cons y q =>
                    rw [nodeAt_cons]
                    simp [newChild, lookupChild]
              · rw [lookupChild_append_single]
                have hne : tok ≠ x := fun hh => hx hh.symm
                cases hcs : lookupChild cs x <;> simp [hne]

theorem nodeAt_bump_cons (n : TreeNode) (x : Int) (q : List Int) :
    nodeAt n.bump (x :: q) = nodeAt n (x :: q) := by
  rw [nodeAt_cons, nodeAt_cons, TreeNode.bump_children]

/-- A node exists after an insertion iff it existed before or its path is a
prefix of the inserted token list. -/
theorem insert_nodeAt_isSome :
    ∀ (ts : List Int) (n : TreeNode) (a : Option ℚ) (ctr : Nat) (p : List Int),
      (nodeAt (insertCompletion n ts a ctr).1 p).isSome =
        ((nodeAt n p).isSome || p.isPrefixOf ts)
  | [], n, a, ctr, p => by
      obtain ⟨t, u, cs, e, s, c⟩ := n
      cases p with
      | nil => simp [insertCompletion, List.isPrefixOf]
      | cons x p' =>
          simp only [insertCompletion, nodeAt_cons, TreeNode.children_mk]
          simp [List.isPrefixOf]
  | tok :: rest, n, a, ctr, p => by
      obtain ⟨t, u, cs, e, s, c⟩ := n
      simp only [insertCompletion]
      cases hl : lookupChild cs tok with
      | some child =>
          cases p with
          | nil => simp [List.isPrefixOf]
          | cons x p' =>
              rw [nodeAt_cons, nodeAt_cons]
              simp only [TreeNode.children_mk]
              by_cases hx : x = tok
              · subst hx
                rw [lookupChild_setChild_self cs x _ (by simp [hl]), hl]
                simp only [Option.some_bind]
                rw [insert_nodeAt_isSome rest child.bump a ctr p']
                cases p' with
                | nil => simp [List.isPrefixOf]
                | cons y q => rw [nodeAt_bump_cons]; simp [List.isPrefixOf]
              · rw [lookupChild_setChild_ne cs tok x _ hx]
                have hb : (x == tok) = false := by simp [hx]
                simp [List.isPrefixOf, hb]
      | none =>
          cases p with
          | nil => simp [List.isPrefixOf]
          | cons x p' =>
              rw [nodeAt_cons, nodeAt_cons]
              simp only [TreeNode.children_mk]
              rw [lookupChild_append_single]
              by_cases hx : x = tok
              · subst hx
                rw [hl]
                simp only [if_pos rfl, if_true, Option.some_bind, Option.none_bind]
                rw [insert_nodeAt_isSome rest _ a (ctr + 1) p']
                cases p' with
                | nil => simp [List.isPrefixOf]
                | cons y q =>
                    rw [nodeAt_bump_cons, nodeAt_cons]
                    simp [newChild, lookupChild, List.isPrefixOf]
              · have hne : tok ≠ x := fun hh => hx hh.symm
                have hb : (x == tok) = false := by simp [hx]
                cases hcs : lookupChild cs x <;> simp [hne, hb, List.isPrefixOf]

@[simp] theorem countAt_nil (n : TreeNode) : countAt n [] = n.count := rfl

@[simp] theorem endAt_nil (n : TreeNode) : endAt n [] = n.is_end_of_completion := rfl

@[simp] theorem scoreAt_nil (n : TreeNode) : scoreAt n [] = n.score := rfl

@[simp] theorem keysAt_nil (n : TreeNode) : keysAt n [] = n.children.map Prod.fst := rfl

theorem countAt_cons_some {n : TreeNode} {x : Int} {m : TreeNode}
    (h : lookupChild n.children x = some m) (p' : List Int) :
    countAt n (x :: p') = countAt m p' := by
  simp [countAt, nodeAt_cons, h]

theorem countAt_cons_none {n : TreeNode} {x : Int}
    (h : lookupChild n.children x = none) (p' : List Int) :
    countAt n (x :: p') = 0 := by
  simp [countAt, nodeAt_cons, h]

theorem endAt_cons_some {n : TreeNode} {x : Int} {m : TreeNode}
    (h : lookupChild n.children x = some m) (p' : List Int) :
    endAt n (x :: p') = endAt m p' := by
  simp [endAt, nodeAt_cons, h]

theorem endAt_cons_none {n : TreeNode} {x : Int}
    (h : lookupChild n.children x = none) (p' : List Int) :
    endAt n (x :: p') = false := by
  simp [endAt, nodeAt_cons, h]

theorem scoreAt_cons_some {n : TreeNode} {x : Int} {m : TreeNode}
    (h : lookupChild n.children x = some m) (p' : List Int) :
    scoreAt n (x :: p') = scoreAt m p' := by
  simp [scoreAt, nodeAt_cons, h]

theorem scoreAt_cons_none {n : TreeNode} {x : Int}
    (h : lookupChild n.children x = none) (p' : List Int) :
    scoreAt n (x :: p') = none := by
  simp [scoreAt, nodeAt_cons, h]

theorem keysAt_cons_some {n : TreeNode} {x : Int} {m : TreeNode}
    (h : lookupChild n.children x = some m) (p' : List Int) :
    keysAt n (x :: p') = keysAt m p' := by
  simp [keysAt, nodeAt_cons, h]

theorem keysAt_cons_none {n : TreeNode} {x : Int}
    (h : lookupChild n.children x = none) (p' : List Int) :
    keysAt n (x :: p') = [] := by
  simp [keysAt, nodeAt_cons, h]

@[simp] theorem countAt_bump_cons (n : TreeNode) (x : Int) (q : List Int) :
    countAt n.bump (x :: q) = countAt n (x :: q) := by
  simp [countAt, nodeAt_bump_cons]

theorem endAt_bump (n : TreeNode) (q : List Int) : endAt n.bump q = endAt n q := by
  cases q with
  | nil => simp
  | cons x q' => simp [endAt, nodeAt_bump_cons]

theorem scoreAt_bump (n : TreeNode) (q : List Int) : scoreAt n.bump q = scoreAt n q := by
  cases q with
  | nil => simp
  | cons x q' => simp [scoreAt, nodeAt_bump_cons]

theorem keysAt_bump (n : TreeNode) (q : List Int) : keysAt n.bump q = keysAt n q := by
  cases q with
  | nil => simp
  | cons x q' => simp [keysAt, nodeAt_bump_cons]

/-- Count after one insertion: every nonempty path that is a prefix of the
inserted token list is incremented once (the created node counts as `0 + 1`),
everything else — including the starting node itself — is unchanged. -/
theorem insert_countAt :
    ∀ (ts : List Int) (n : TreeNode) (a : Option ℚ) (ctr : Nat) (p : List Int),
      countAt (insertCompletion n ts a ctr).1 p =
        if p ≠ [] ∧ p.isPrefixOf ts then countAt n p + 1 else countAt n p
  | [], n, a, ctr, p => by
      obtain ⟨t, u, cs, e, s, c⟩ := n
      cases p with
      | nil => simp [insertCompletion]
      | cons x p' =>
          simp only [insertCompletion]
          have hch : (TreeNode.mk t u cs true
              (match a with | some v => some v | none => s) c).children = cs := rfl
          simp [List.isPrefixOf, countAt, nodeAt_cons]
  | tok :: rest, n, a, ctr, p => by
      obtain ⟨t, u, cs, e, s, c⟩ := n
      simp only [insertCompletion]
      cases hl : lookupChild cs tok with
      | some child =>
          cases p with
          | nil => simp
          | cons x p' =>
              by_cases hx : x = tok
              · subst hx
                rw [countAt_cons_some (m := (insertCompletion child.bump rest a ctr).1)
                      (by simpa using lookupChild_setChild_self cs x _ (by simp [hl])) p']
                rw [insert_countAt rest child.bump a ctr p']
                rw [countAt_cons_some (by simpa using hl) p']
                cases p' with
                | nil => simp [List.isPrefixOf]
                | cons y q =>
                    by_cases hq : (y :: q).isPrefixOf rest <;>
                      simp [List.isPrefixOf, hq]
              · have hb : (x == tok) = false := by simp [hx]
                have hs' : lookupChild (setChild cs tok
                    (insertCompletion child.bump rest a ctr).1) x = lookupChild cs x :=
                  lookupChild_setChild_ne cs tok x _ hx
                cases hcs : lookupChild cs x with
                | some m =>
                    rw [countAt_cons_some (by simpa [hs'] using hcs) p',
                        countAt_cons_some (by simpa using hcs) p']
                    simp [List.isPrefixOf, hb]
                | none =>
                    rw [countAt_cons_none (by simpa [hs'] using hcs) p',
                        countAt_cons_none (by simpa using hcs) p']
                    simp [List.isPrefixOf, hb]
      | none =>
          cases p with
          | nil => simp
          | cons x p' =>
              have happ := lookupChild_append_single cs tok
                (insertCompletion (newChild tok ctr).bump rest a (ctr + 1)).1 x
              by_cases hx : x = tok
              · subst hx
                rw [countAt_cons_some (m := (insertCompletion
                      (newChild x ctr).bump rest a (ctr + 1)).1)
                      (by simp [happ, hl]) p']
                rw [insert_countAt rest _ a (ctr + 1) p']
                rw [countAt_cons_none (by simpa using hl) p']
                cases p' with
                | nil => simp [List.isPrefixOf, newChild, TreeNode.bump]
                | cons y q =>
                    have hz : countAt (newChild x ctr).bump (y :: q) = 0 := by
                      rw [countAt_bump_cons]
                      exact countAt_cons_none (by simp [newChild, lookupChild]) q
                    by_cases hq : (y :: q).isPrefixOf rest <;>
                      simp [List.isPrefixOf, hq, hz]
              · have hb : (x == tok) = false := by simp [hx]
                have hne : tok ≠ x := fun hh => hx hh.symm
                cases hcs : lookupChild cs x with
                | some m =>
                    rw [countAt_cons_some (m := m) (by simp [happ, hcs]) p',
                        countAt_cons_some (by simpa using hcs) p']
                    simp [List.isPrefixOf, hb]
                | none =>
                    rw [countAt_cons_none (by simp [happ, hcs, hne]) p',
                        countAt_cons_none (by simpa using hcs) p']
                    simp [List.isPrefixOf, hb]

/-- Terminal flag after one insertion: exactly the end node of the inserted
list becomes terminal; every other node keeps its flag. -/
theorem insert_endAt :
    ∀ (ts : List Int) (n : TreeNode) (a : Option ℚ) (ctr : Nat) (p : List Int),
      endAt (insertCompletion n ts a ctr).1 p = if p = ts then true else endAt n p
  | [], n, a, ctr, p => by
      obtain ⟨t, u, cs, e, s, c⟩ := n
      cases p with
      | nil => simp [insertCompletion]
      | cons x p' =>
          simp only [insertCompletion]
          cases hcs : lookupChild cs x with
          | some m =>
              rw [endAt_cons_some (m := m) (by simpa using hcs) p',
                  endAt_cons_some (m := m) (by simpa using hcs) p']
              simp
          | none =>
              rw [endAt_cons_none (by simpa using hcs) p',
                  endAt_cons_none (by simpa using hcs) p']
              simp
  | tok :: rest, n, a, ctr, p => by
      obtain ⟨t, u, cs, e, s, c⟩ := n
      simp only [insertCompletion]
      cases hl : lookupChild cs tok with
      | some child =>
          cases p with
          | nil => simp
          | cons x p' =>
              by_cases hx : x = tok
              · subst hx
                rw [endAt_cons_some (m := (insertCompletion child.bump rest a ctr).1)
                      (by simpa using lookupChild_setChild_self cs x _ (by simp [hl])) p']
                rw [insert_endAt rest child.bump a ctr p']
                rw [endAt_cons_some (by simpa using hl) p', endAt_bump]
                by_cases hq : p' = rest <;> simp [hq]
              · have hs' : lookupChild (setChild cs tok
                    (insertCompletion child.bump rest a ctr).1) x = lookupChild cs x :=
                  lookupChild_setChild_ne cs tok x _ hx
                cases hcs : lookupChild cs x with
                | some m =>
                    rw [endAt_cons_some (m := m) (by simpa [hs'] using hcs) p',
                        endAt_cons_some (m := m) (by simpa using hcs) p']
                    simp [hx]
                | none =>
                    rw [endAt_cons_none (by simpa [hs'] using hcs) p',
                        endAt_cons_none (by simpa using hcs) p']
                    simp [hx]
      | none =>
          cases p with
          | nil => simp
          | cons x p' =>
              have happ := lookupChild_append_single cs tok
                (insertCompletion (newChild tok ctr).bump rest a (ctr + 1)).1 x
              by_cases hx : x = tok
              · subst hx
                rw [endAt_cons_some (m := (insertCompletion
                      (newChild x ctr).bump rest a (ctr + 1)).1)
                      (by simp [happ, hl]) p']
                rw [insert_endAt rest _ a (ctr + 1) p']
                rw [endAt_cons_none (by simpa using hl) p', endAt_bump]
                have hz : endAt (newChild x ctr) p' = false := by
                  cases p' with
                  | nil => simp [newChild]
                  | cons y q => exact endAt_cons_none (by simp [newChild, lookupChild]) q
                by_cases hq : p' = rest <;> simp [hq, hz]
              · have hne : tok ≠ x := fun hh => hx hh.symm
                cases hcs : lookupChild cs x with
                | some m =>
                    rw [endAt_cons_some (m := m) (by simp [happ, hcs]) p',
                        endAt_cons_some (m := m) (by simpa using hcs) p']
                    simp [hx]
                | none =>
                    rw [endAt_cons_none (by simp [happ, hcs, hne]) p',
                        endAt_cons_none (by simpa using hcs) p']
                    simp [hx]

/-- Score after one insertion: only the end node of the inserted list is
affected, and only when a score is supplied for this completion (an
out-of-bounds index, `assign = none`, leaves the previous value). -/
theorem insert_scoreAt :
    ∀ (ts : List Int) (n : TreeNode) (a : Option ℚ) (ctr : Nat) (p : List Int),
      scoreAt (insertCompletion n ts a ctr).1 p =
        if p = ts then (match a with | some v => some v | none => scoreAt n p)
        else scoreAt n p
  | [], n, a, ctr, p => by
      obtain ⟨t, u, cs, e, s, c⟩ := n
      cases p with
      | nil => cases a <;> simp [insertCompletion]
      | cons x p' =>
          simp only [insertCompletion]
          cases hcs : lookupChild cs x with
          | some m =>
              rw [scoreAt_cons_some (m := m) (by simpa using hcs) p',
                  scoreAt_cons_some (m := m) (by simpa using hcs) p']
              simp
          | none =>
              rw [scoreAt_cons_none (by simpa using hcs) p',
                  scoreAt_cons_none (by simpa using hcs) p']
              simp
  | tok :: rest, n, a, ctr, p => by
      obtain ⟨t, u, cs, e, s, c⟩ := n
      simp only [insertCompletion]
      cases hl : lookupChild cs tok with
      | some child =>
          cases p with
          | nil => simp
          | cons x p' =>
              by_cases hx : x = tok
              · subst hx
                rw [scoreAt_cons_some (m := (insertCompletion child.bump rest a ctr).1)
                      (by simpa using lookupChild_setChild_self cs x _ (by simp [hl])) p']
                rw [insert_scoreAt rest child.bump a ctr p']
                rw [scoreAt_cons_some (by simpa using hl) p', scoreAt_bump]
                by_cases hq : p' = rest <;> simp [hq]
              · have hs' : lookupChild (setChild cs tok
                    (insertCompletion child.bump rest a ctr).1) x = lookupChild cs x :=
                  lookupChild_setChild_ne cs tok x _ hx
                cases hcs : lookupChild cs x with
                | some m =>
                    rw [scoreAt_cons_some (m := m) (by simpa [hs'] using hcs) p',
                        scoreAt_cons_some (m := m) (by simpa using hcs) p']
                    simp [hx]
                | none =>
                    rw [scoreAt_cons_none (by simpa [hs'] using hcs) p',
                        scoreAt_cons_none (by simpa using hcs) p']
                    simp [hx]
      | none =>
          cases p with
          | nil => simp
          | cons x p' =>
              have happ := lookupChild_append_single cs tok
                (insertCompletion (newChild tok ctr).bump rest a (ctr + 1)).1 x
              by_cases hx : x = tok
              · subst hx
                rw [scoreAt_cons_some (m := (insertCompletion
                      (newChild x ctr).bump rest a (ctr + 1)).1)
                      (by simp [happ, hl]) p']
                rw [insert_scoreAt rest _ a (ctr + 1) p']
                rw [scoreAt_cons_none (by simpa using hl) p', scoreAt_bump]
                have hz : scoreAt (newChild x ctr) p' = none := by
                  cases p' with
                  | nil => simp [newChild]
                  | cons y q => exact scoreAt_cons_none (by simp [newChild, lookupChild]) q
                by_cases hq : p' = rest
                · subst hq
                  cases a <;> simp [hz]
                · cases a <;> simp [hq, hz]
              · have hne : tok ≠ x := fun hh => hx hh.symm
                cases hcs : lookupChild cs x with
                | some m =>
                    rw [scoreAt_cons_some (m := m) (by simp [happ, hcs]) p',
                        scoreAt_cons_some (m := m) (by simpa using hcs) p']
                    simp [hx]
                | none =>
                    rw [scoreAt_cons_none (by simp [happ, hcs, hne]) p',
                        scoreAt_cons_none (by simpa using hcs) p']
                    simp [hx]

theorem nodeAt_bump_append_singleton (n : TreeNode) (q : List Int) (tk : Int) :
    nodeAt n.bump (q ++ [tk]) = nodeAt n (q ++ [tk]) := by
  cases q with
  | nil => simpa using nodeAt_bump_cons n tk []
  | cons x q' => simpa using nodeAt_bump_cons n x (q' ++ [tk])

/-- A token is a child key of the node at `q` iff the extended path exists. -/
theorem mem_keysAt_iff (n : TreeNode) (q : List Int) (tk : Int) :
    tk ∈ keysAt n q ↔ (nodeAt n (q ++ [tk])).isSome := by
  rw [nodeAt_append]
  cases hn : nodeAt n q with
  | none => simp [keysAt, hn]
  | some m =>
      simp only [keysAt, hn, Option.map_some, Option.getD_some, Option.some_bind]
      rw [nodeAt_cons]
      cases hm : lookupChild m.children tk with
      | some c =>
          simp only [Option.some_bind, nodeAt_nil, Option.isSome_some, iff_true]
          exact (lookupChild_isSome_iff_mem m.children tk).mp (by simp [hm])
      | none =>
          simp only [Option.none_bind, Option.isSome_none, Bool.false_eq_true, iff_false]
          intro hmem
          have := (lookupChild_isSome_iff_mem m.children tk).mpr hmem
          simp [hm] at this

/-- Child keys after an insertion, at a proper prefix of the inserted list:
the next token is appended to the keys exactly when its node did not exist. -/
theorem insert_keysAt_proper :
    ∀ (p : List Int) (n : TreeNode) (tk : Int) (rest2 : List Int) (a : Option ℚ) (ctr : Nat),
      keysAt (insertCompletion n (p ++ tk :: rest2) a ctr).1 p =
        keysAt n p ++ (if (nodeAt n (p ++ [tk])).isSome then [] else [tk])
  | [], n, tk, rest2, a, ctr => by
      obtain ⟨t, u, cs, e, s, c⟩ := n
      simp only [List.nil_append, insertCompletion]
      cases hl : lookupChild cs tk with
      | some child =>
          have : (nodeAt (TreeNode.mk t u cs e s c) [tk]).isSome := by
            rw [nodeAt_cons]
            simp [hl]
          simp [this]
      | none =>
          have : ¬(nodeAt (TreeNode.mk t u cs e s c) [tk]).isSome := by
            rw [nodeAt_cons]
            simp [hl]
          simp [this]
  | x :: p', n, tk, rest2, a, ctr => by
      obtain ⟨t, u, cs, e, s, c⟩ := n
      simp only [List.cons_append, insertCompletion]
      cases hl : lookupChild cs x with
      | some child =>
          rw [keysAt_cons_some (m := (insertCompletion child.bump (p' ++ tk :: rest2) a ctr).1)
                (by simpa using lookupChild_setChild_self cs x _ (by simp [hl])) p']
          rw [insert_keysAt_proper p' child.bump tk rest2 a ctr]
          rw [keysAt_bump, nodeAt_bump_append_singleton]
          rw [keysAt_cons_some (by simpa using hl) p']
          have hth : nodeAt (TreeNode.mk t u cs e s c) (x :: (p' ++ [tk])) =
              nodeAt child (p' ++ [tk]) := by
            rw [nodeAt_cons]
            simp [hl]
          simp only [List.cons_append, hth]
      | none =>
          have happ := lookupChild_append_single cs x
            (insertCompletion (newChild x ctr).bump (p' ++ tk :: rest2) a (ctr + 1)).1 x
          rw [keysAt_cons_some (m := (insertCompletion
                (newChild x ctr).bump (p' ++ tk :: rest2) a (ctr + 1)).1)
                (by simp [happ, hl]) p']
          rw [insert_keysAt_proper p' _ tk rest2 a (ctr + 1)]
          rw [keysAt_bump, nodeAt_bump_append_singleton]
          have h1 : keysAt (newChild x ctr) p' = [] := by
            cases p' with
            | nil => simp [newChild]
            | cons y q => exact keysAt_cons_none (by simp [newChild, lookupChild]) q
          have h2 : ¬(nodeAt (newChild x ctr) (p' ++ [tk])).isSome := by
            cases hq : p' ++ [tk] with
            | nil => simp at hq
            | cons y q =>
                rw [nodeAt_cons]
                simp [newChild, lookupChild]
          have h3 : keysAt (TreeNode.mk t u cs e s c) (x :: p') = [] :=
            keysAt_cons_none (by simpa using hl) p'
          have h4 : ¬(nodeAt (TreeNode.mk t u cs e s c) (x :: (p' ++ [tk]))).isSome := by
            rw [nodeAt_cons]
            simp [hl]
          simp [h1, h2, h3, h4]

/-- Marking the end node terminal does not change its child keys. -/
theorem insert_keysAt_self :
    ∀ (ts : List Int) (n : TreeNode) (a : Option ℚ) (ctr : Nat),
      keysAt (insertCompletion n ts a ctr).1 ts = keysAt n ts
  | [], n, a, ctr => by
      obtain ⟨t, u, cs, e, s, c⟩ := n
      simp [insertCompletion]
  | tok :: rest, n, a, ctr => by
      obtain ⟨t, u, cs, e, s, c⟩ := n
      simp only [insertCompletion]
      cases hl : lookupChild cs tok with
      | some child =>
          rw [keysAt_cons_some (m := (insertCompletion child.bump rest a ctr).1)
                (by simpa using lookupChild_setChild_self cs tok _ (by simp [hl])) rest]
          rw [insert_keysAt_self rest child.bump a ctr, keysAt_bump]
          rw [keysAt_cons_some (by simpa using hl) rest]
      | none =>
          have happ := lookupChild_append_single cs tok
            (insertCompletion (newChild tok ctr).bump rest a (ctr + 1)).1 tok
          rw [keysAt_cons_some (m := (insertCompletion
                (newChild tok ctr).bump rest a (ctr + 1)).1)
                (by simp [happ, hl]) rest]
          rw [insert_keysAt_self rest _ a (ctr + 1), keysAt_bump]
          have h1 : keysAt (newChild tok ctr) rest = [] := by
            cases rest with
            | nil => simp [newChild]
            | cons y q => exact keysAt_cons_none (by simp [newChild, lookupChild]) q
          have h3 : keysAt (TreeNode.mk t u cs e s c) (tok :: rest) = [] :=
            keysAt_cons_none (by simpa using hl) rest
          simp [h1, h3]

/-- Insertion preserves pairwise-distinct child keys at every node. -/
theorem insert_keysAt_nodup (ts : List Int) (n : TreeNode) (a : Option ℚ) (ctr : Nat)
    (h : ∀ q, (keysAt n q).Nodup) :
    ∀ q, (keysAt (insertCompletion n ts a ctr).1 q).Nodup := by
  intro q
  by_cases hq : q <+: ts
  · by_cases hqe : q = ts
    · subst hqe
      rw [insert_keysAt_self]
      exact h q
    · obtain ⟨s', rfl⟩ := hq
      cases s' with
      | nil => simp at hqe
      | cons tk rest2 =>
          rw [insert_keysAt_proper q n tk rest2 a ctr]
          by_cases hex : (nodeAt n (q ++ [tk])).isSome
          · simp [hex, h q]
          · have : tk ∉ keysAt n q := fun hm => hex ((mem_keysAt_iff n q tk).mp hm)
            simp [hex, List.nodup_append, h q, this]
  · have : nodeAt (insertCompletion n ts a ctr).1 q = nodeAt n q :=
      insert_nodeAt_off_path ts n a ctr q hq
    simp only [keysAt, this]
    exact h q

/-! ### Characterization of the whole build -/

theorem insertAll_countAt :
    ∀ (cs : List (List Int)) (n : TreeNode) (ss : Option (List ℚ)) (ctr : Nat) (p : List Int),
      countAt (insertAll n cs ss ctr).1 p =
        countAt n p + (if p = [] then 0 else cs.countP (fun c => p.isPrefixOf c))
  | [], n, ss, ctr, p => by simp [insertAll]
  | c :: cs', n, ss, ctr, p => by
      simp only [insertAll]
      rw [insertAll_countAt cs' _ (tailScores ss) _ p]
      rw [insert_countAt c n (headScore ss) ctr p]
      rw [List.countP_cons]
      cases p with
      | nil => simp
      | cons x p' =>
          by_cases hpc : (x :: p').isPrefixOf c <;> simp [hpc] <;> omega

theorem insertAll_endAt :
    ∀ (cs : List (List Int)) (n : TreeNode) (ss : Option (List ℚ)) (ctr : Nat) (p : List Int),
      endAt (insertAll n cs ss ctr).1 p = (endAt n p || decide (p ∈ cs))
  | [], n, ss, ctr, p => by simp [insertAll]
  | c :: cs', n, ss, ctr, p => by
      simp only [insertAll]
      rw [insertAll_endAt cs' _ (tailScores ss) _ p]
      rw [insert_endAt c n (headScore ss) ctr p]
      by_cases hpc : p = c <;> simp [hpc]

theorem insertAll_scoreAt :
    ∀ (cs : List (List Int)) (n : TreeNode) (ss : Option (List ℚ)) (ctr : Nat) (p : List Int),
      scoreAt (insertAll n cs ss ctr).1 p =
        (assignedScores cs ss).foldl
          (fun acc ca =>
            if ca.1 = p then (match ca.2 with | some v => some v | none => acc) else acc)
          (scoreAt n p)
  | [], n, ss, ctr, p => by simp [insertAll, assignedScores]
  | c :: cs', n, ss, ctr, p => by
      simp only [insertAll, assignedScores, List.foldl_cons]
      rw [insertAll_scoreAt cs' _ (tailScores ss) _ p]
      rw [insert_scoreAt c n (headScore ss) ctr p]
      by_cases hpc : p = c
      · subst hpc
        simp only [if_pos rfl]
      · have : c ≠ p := fun hh => hpc hh.symm
        simp only [if_neg hpc, if_neg this]

theorem insertAll_nodeAt_isSome :
    ∀ (cs : List (List Int)) (n : TreeNode) (ss : Option (List ℚ)) (ctr : Nat) (p : List Int),
      (nodeAt (insertAll n cs ss ctr).1 p).isSome =
        ((nodeAt n p).isSome || cs.any (fun c => p.isPrefixOf c))
  | [], n, ss, ctr, p => by simp [insertAll]
  | c :: cs', n, ss, ctr, p => by
      simp only [insertAll, List.any_cons]
      rw [insertAll_nodeAt_isSome cs' _ (tailScores ss) _ p]
      rw [insert_nodeAt_isSome c n (headScore ss) ctr p]
      cases hpc : p.isPrefixOf c <;> simp [Bool.or_assoc, Bool.or_comm]

theorem insertAll_keysAt_nodup :
    ∀ (cs : List (List Int)) (n : TreeNode) (ss : Option (List ℚ)) (ctr : Nat),
      (∀ q, (keysAt n q).Nodup) → ∀ q, (keysAt (insertAll n cs ss ctr).1 q).Nodup
  | [], n, ss, ctr, h, q => by simpa [insertAll] using h q
  | c :: cs', n, ss, ctr, h, q => by
      simp only [insertAll]
      exact insertAll_keysAt_nodup cs' _ (tailScores ss) _
        (insert_keysAt_nodup c n (headScore ss) ctr h) q

/-- The node count at any path of a built tree equals the number of inserted
completions having that path as a prefix (for the root this is all of them,
matching `root.count = len(completions)`). -/
theorem buildTree_countAt (cs : List (List Int)) (ss : Option (List ℚ)) (p : List Int) :
    countAt (buildTree cs ss).root p = cs.countP (fun c => p.isPrefixOf c) := by
  show countAt (insertAll (.mk .root 0 [] false none cs.length) cs ss 1).1 p = _
  rw [insertAll_countAt]
  cases p with
  | nil =>
      have hall : ∀ c ∈ cs, ([] : List Int).isPrefixOf c = true := fun c _ => by
        simp [List.isPrefixOf]
      rw [List.countP_eq_length.mpr hall]
      simp
  | cons x p' =>
      rw [countAt_cons_none (by simp [lookupChild]) p']
      simp

/-- A node is terminal in a built tree iff its path is one of the inserted
completions. -/
theorem buildTree_endAt (cs : List (List Int)) (ss : Option (List ℚ)) (p : List Int) :
    endAt (buildTree cs ss).root p = decide (p ∈ cs) := by
  show endAt (insertAll (.mk .root 0 [] false none cs.length) cs ss 1).1 p = _
  rw [insertAll_endAt]
  cases p with
  | nil => simp
  | cons x p' =>
      rw [endAt_cons_none (by simp [lookupChild]) p']
      simp

/-- The score stored at any path of a built tree is the last score assigned
by a scored completion terminating there (unscored terminations keep the
previous value). -/
theorem buildTree_scoreAt (cs : List (List Int)) (ss : Option (List ℚ)) (p : List Int) :
    scoreAt (buildTree cs ss).root p = lastAssigned p (assignedScores cs ss) := by
  show scoreAt (insertAll (.mk .root 0 [] false none cs.length) cs ss 1).1 p = _
  rw [insertAll_scoreAt]
  cases p with
  | nil => simp [lastAssigned]
  | cons x p' =>
      rw [scoreAt_cons_none (by simp [lookupChild]) p']
      simp [lastAssigned]

/-- A path exists in a built tree iff it is empty (the root) or a prefix of
some inserted completion. -/
theorem buildTree_nodeAt_isSome (cs : List (List Int)) (ss : Option (List ℚ)) (p : List Int) :
    (nodeAt (buildTree cs ss).root p).isSome =
      (decide (p = []) || cs.any (fun c => p.isPrefixOf c)) := by
  show (nodeAt (insertAll (.mk .root 0 [] false none cs.length) cs ss 1).1 p).isSome = _
  rw [insertAll_nodeAt_isSome]
  cases p with
  | nil => simp
  | cons x p' =>
      rw [show nodeAt (TreeNode.mk .root 0 [] false none cs.length) (x :: p') = none from by
        rw [nodeAt_cons]; simp [lookupChild]]
      simp

/-- Every node of a built tree has pairwise-distinct child keys. -/
theorem buildTree_keysAt_nodup (cs : List (List Int)) (ss : Option (List ℚ)) (p : List Int) :
    (keysAt (buildTree cs ss).root p).Nodup := by
  show (keysAt (insertAll (.mk .root 0 [] false none cs.length) cs ss 1).1 p).Nodup
  refine insertAll_keysAt_nodup cs _ ss 1 (fun q => ?_) p
  cases q with
  | nil => simp
  | cons x q' =>
      rw [keysAt_cons_none (by simp [lookupChild]) q']
      exact List.nodup_nil

/-! ### A counting identity over prefixes -/

theorem sum_single_key {M : Type} [AddCommMonoid M] :
    ∀ keys : List Int, keys.Nodup → ∀ tk0 : Int, tk0 ∈ keys → ∀ x : M,
      (keys.map (fun tk => if tk = tk0 then x else 0)).sum = x
  | [], _, tk0, hmem, x => by simp at hmem
  | k :: ks, hnd, tk0, hmem, x => by
      simp only [List.nodup_cons] at hnd
      rcases List.mem_cons.mp hmem with h | h
      · have hz : ∀ tk ∈ ks, (if tk = tk0 then x else 0) = (fun _ : Int => (0 : M)) tk := by
          intro tk htk
          have hne : tk ≠ tk0 := by
            intro he
            apply hnd.1
            rw [← h, ← he]
            exact htk
          simp [hne]
        simp only [List.map_cons, List.sum_cons, if_pos h.symm]
        rw [List.map_congr_left hz]
        simp
      · have hk : k ≠ tk0 := fun he => hnd.1 (he ▸ h)
        simp only [List.map_cons, List.sum_cons, if_neg hk]
        rw [sum_single_key ks hnd.2 tk0 h x, zero_add]

/-- Splitting a prefix-filtered sum at a node: the contributions of the
items extending `p` are the items equal to `p` plus, for each continuation
token, the items extending `p ++ [tk]`. -/
theorem prefix_sum_split {α M : Type} [AddCommMonoid M] (p : List Int)
    (key : α → List Int) (w : α → M) (keys : List Int) (hnd : keys.Nodup) :
    ∀ l : List α,
      (∀ a ∈ l, ∀ tk r2, key a = p ++ tk :: r2 → tk ∈ keys) →
      (l.map (fun a => if p.isPrefixOf (key a) then w a else 0)).sum =
        (l.map (fun a => if key a = p then w a else 0)).sum +
          (keys.map (fun tk =>
            (l.map (fun a => if (p ++ [tk]).isPrefixOf (key a) then w a else 0)).sum)).sum
  | [], _ => by
      simp
  | a :: l', hcov => by
      have ihl := prefix_sum_split p key w keys hnd l'
        (fun b hb tk r2 hh => hcov b (List.mem_cons_of_mem a hb) tk r2 hh)
      simp only [List.map_cons, List.sum_cons]
      rw [ihl]
      have hsplit : (keys.map (fun tk =>
          (if (p ++ [tk]).isPrefixOf (key a) then w a else 0) +
            (l'.map (fun b => if (p ++ [tk]).isPrefixOf (key b) then w b else 0)).sum)).sum =
          (keys.map (fun tk => if (p ++ [tk]).isPrefixOf (key a) then w a else 0)).sum +
            (keys.map (fun tk =>
              (l'.map (fun b => if (p ++ [tk]).isPrefixOf (key b) then w b else 0)).sum)).sum :=
        List.sum_map_add
      rw [hsplit]
      have hhead : (if p.isPrefixOf (key a) then w a else 0) =
          (if key a = p then w a else 0) +
            (keys.map (fun tk => if (p ++ [tk]).isPrefixOf (key a) then w a else 0)).sum := by
        by_cases hpa : p.isPrefixOf (key a)
        · have hp : p <+: key a := (List.isPrefixOf_iff_prefix).mp hpa
          by_cases heq : key a = p
          · have hz : ∀ tk ∈ keys,
                (if (p ++ [tk]).isPrefixOf (key a) then w a else 0) =
                  (fun _ : Int => (0 : M)) tk := by
              intro tk _
              have : ¬(p ++ [tk]).isPrefixOf (key a) := by
                rw [heq]
                intro hc
                have := ((List.isPrefixOf_iff_prefix).mp hc).length_le
                simp at this
              simp [this]
            rw [List.map_congr_left hz]
            simp [hpa, heq]
          · obtain ⟨s', hs⟩ := hp
            cases s' with
            | nil => exact absurd (by rw [← hs]; simp) heq
            | cons tk0 r2 =>
                have htk0 : tk0 ∈ keys := hcov a (by simp) tk0 r2 hs.symm
                have hz : ∀ tk ∈ keys,
                    (if (p ++ [tk]).isPrefixOf (key a) then w a else 0) =
                      (if tk = tk0 then w a else 0) := by
                  intro tk _
                  have : (p ++ [tk]).isPrefixOf (key a) ↔ tk = tk0 := by
                    rw [List.isPrefixOf_iff_prefix, ← hs, List.prefix_append_right_inj,
                      List.cons_prefix_cons]
                    simp
                  by_cases hc : tk = tk0
                  · rw [if_pos (this.mpr hc), if_pos hc]
                  · rw [if_neg (fun hx => hc (this.mp hx)), if_neg hc]
                rw [List.map_congr_left hz, sum_single_key keys hnd tk0 htk0 (w a)]
                simp [hpa, heq]
        · have hz : ∀ tk ∈ keys,
              (if (p ++ [tk]).isPrefixOf (key a) then w a else 0) =
                (fun _ : Int => (0 : M)) tk := by
            intro tk _
            have : ¬(p ++ [tk]).isPrefixOf (key a) := by
              intro hc
              refine hpa ?_
              rw [List.isPrefixOf_iff_prefix] at hc ⊢
              exact (List.prefix_append p [tk]).trans hc
            simp [this]
          rw [List.map_congr_left hz]
          have hne : key a ≠ p := by
            intro he
            refine hpa ?_
            rw [List.isPrefixOf_iff_prefix, he]
          simp [hpa, hne]
      rw [hhead]
      abel

theorem countP_eq_sum_ite (cs : List (List Int)) (pred : List Int → Bool) :
    cs.countP pred = (cs.map (fun c => if pred c then 1 else 0)).sum := by
  induction cs with
  | nil => simp
  | cons c cs' ih =>
      by_cases h : pred c <;> simp [List.countP_cons, h, ih] <;> omega

/-- The child entries of the node at path `p` are exactly the nodes at the
extended paths. -/
theorem nodeAt_child {T : TreeNode} {p : List Int} {n : TreeNode}
    (h : nodeAt T p = some n) (hnd : (n.children.map Prod.fst).Nodup)
    (k : Int) (c : TreeNode) (hkc : (k, c) ∈ n.children) :
    nodeAt T (p ++ [k]) = some c := by
  rw [nodeAt_append, h, Option.some_bind, nodeAt_cons,
    lookupChild_eq_some_of_mem n.children k c hnd hkc]
  rfl

/-- C3: after construction, every node's count equals the sum of its direct
children's counts plus the number of inserted sequences that end exactly at
that node; in particular the root's count is the number of inserted
sequences, empty sequences included. -/
theorem c3_count_invariant (cs : List (List Int)) (ss : Option (List ℚ))
    (p : List Int) (n : TreeNode)
    (h : nodeAt (buildTree cs ss).root p = some n) :
    n.count = (n.children.map (fun kc => kc.2.count)).sum + cs.count p ∧
      (buildTree cs ss).root.count = cs.length := by
  constructor
  · have hkeys : keysAt (buildTree cs ss).root p = n.children.map Prod.fst := by
      simp [keysAt, h]
    have hnd : (n.children.map Prod.fst).Nodup := by
      rw [← hkeys]
      exact buildTree_keysAt_nodup cs ss p
    have hcount : n.count = cs.countP (fun c => p.isPrefixOf c) := by
      have hct := buildTree_countAt cs ss p
      rw [countAt, h] at hct
      simpa using hct
    have hcov : ∀ c ∈ cs, ∀ tk r2, (id c : List Int) = p ++ tk :: r2 →
        tk ∈ n.children.map Prod.fst := by
      intro c hc tk r2 hdec
      simp only [id] at hdec
      have hex : (nodeAt (buildTree cs ss).root (p ++ [tk])).isSome := by
        rw [buildTree_nodeAt_isSome]
        have hpre : (p ++ [tk]) <+: c := by
          rw [hdec]
          exact (List.prefix_append_right_inj p).mpr
            (List.cons_prefix_cons.mpr ⟨rfl, List.nil_prefix⟩)
        have hany : cs.any (fun c => (p ++ [tk]).isPrefixOf c) = true :=
          List.any_eq_true.mpr ⟨c, hc, (List.isPrefixOf_iff_prefix).mpr hpre⟩
        simp [hany]
      have hmem := (mem_keysAt_iff _ p tk).mpr hex
      rw [hkeys] at hmem
      exact hmem
    have hsplit := prefix_sum_split (α := List Int) (M := ℕ) p id (fun _ => 1)
      (n.children.map Prod.fst) hnd cs hcov
    simp only [id] at hsplit
    rw [← countP_eq_sum_ite cs (fun c => p.isPrefixOf c)] at hsplit
    have hmid : (cs.map (fun c => if c = p then 1 else 0)).sum = cs.count p := by
      rw [List.count_eq_countP, countP_eq_sum_ite]
      apply congrArg
      apply List.map_congr_left
      intro c _
      by_cases hcp : c = p
      · simp [hcp]
      · simp [hcp]
    have hthird : (n.children.map Prod.fst).map
        (fun tk => (cs.map (fun c => if (p ++ [tk]).isPrefixOf c then 1 else 0)).sum) =
        n.children.map (fun kc => kc.2.count) := by
      rw [List.map_map]
      apply List.map_congr_left
      intro kc hkc
      obtain ⟨k, c⟩ := kc
      have hchild : nodeAt (buildTree cs ss).root (p ++ [k]) = some c :=
        nodeAt_child h hnd k c hkc
      have hc2 := buildTree_countAt cs ss (p ++ [k])
      rw [countAt, hchild] at hc2
      rw [countP_eq_sum_ite] at hc2
      simpa using hc2.symm
    rw [hcount, hsplit, hmid]
    have hsum : ((n.children.map Prod.fst).map
        (fun tk => (cs.map (fun c => if (p ++ [tk]).isPrefixOf c then 1 else 0)).sum)).sum =
        (n.children.map (fun kc => kc.2.count)).sum := congrArg List.sum hthird
    rw [hsum]
    omega
  · have hr := buildTree_countAt cs ss []
    simp only [countAt_nil] at hr
    rw [hr]
    exact List.countP_eq_length.mpr (fun c _ => by simp [List.isPrefixOf])

/-- Witness for C3 at a concrete batch: the node at path `[1]` of the tree
built from `[[1, 2], [1], []]`. -/
theorem c3_count_invariant_witness :
    TreeNode.count (.mk (.id 1) 1 [(2, .mk (.id 2) 2 [] true none 1)] true none 2) =
        ([(2, TreeNode.mk (.id 2) 2 [] true none 1)].map (fun kc => kc.2.count)).sum +
          ([[1, 2], [1], []] : List (List Int)).count [1] ∧
      (buildTree [[1, 2], [1], []] none).root.count = 3 :=
  c3_count_invariant [[1, 2], [1], []] none [1]
    (.mk (.id 1) 1 [(2, .mk (.id 2) 2 [] true none 1)] true none 2) rfl

/-! ### Fingerprint congruence and order invariance -/

/-- Fingerprints agree for nodes with equal token, flag, terminal score and
the same multiset of (child token, child fingerprint) pairs. -/
theorem hash_eq_of_children_perm (sh : HashComponents → Int) (n1 n2 : TreeNode)
    (ht : n1.token_id = n2.token_id)
    (he : n1.is_end_of_completion = n2.is_end_of_completion)
    (hs : n1.is_end_of_completion = true → n1.score = n2.score)
    (hnd : (n1.children.map Prod.fst).Nodup)
    (hperm : (childHashList sh n1.children).Perm (childHashList sh n2.children)) :
    computeStructuralHashes sh n1 = computeStructuralHashes sh n2 := by
  obtain ⟨t1, u1, cs1, e1, s1, c1⟩ := n1
  obtain ⟨t2, u2, cs2, e2, s2, c2⟩ := n2
  simp only [TreeNode.token_id_mk, TreeNode.is_end_of_completion_mk, TreeNode.score_mk,
    TreeNode.children_mk] at ht he hs hnd hperm
  subst ht
  subst he
  simp only [computeStructuralHashes]
  apply congrArg
  simp only [HashComponents.mk.injEq, true_and]
  constructor
  · cases e1 with
    | false => rfl
    | true => simp [hs rfl]
  · have hndh : ((childHashList sh cs1).map Prod.fst).Nodup := by
      rw [childHashList_eq_map]
      simpa [List.map_map, Function.comp] using hnd
    exact sortByTokenId_eq_of_perm _ _ hperm hndh

/-- C4 counterexample to cross-process stability: the same logical tree
fingerprints differently under two different process hash functions
(CPython's per-process string-hash salt). -/
theorem c4_not_stable_across_processes :
    computeStructuralHashes (fun _ => 0) (buildTree [[1]] none).root ≠
      computeStructuralHashes (fun _ => 1) (buildTree [[1]] none).root := by
  decide

/-- C4 (amended): within one process (one component-hash function `sh`) the
fingerprint is a pure function of the canonical content — token value,
terminal flag, terminal score and token-sorted child contents — with no
dependency on unique ids or traversal counts; in particular canonical
content itself discards `unique_id` and `count`, so structurally equal
subtrees traversed by different numbers of sequences fingerprint
identically. -/
theorem c4_fingerprint_content_determined (sh : HashComponents → Int) :
    (∀ a b : TreeNode, canon a = canon b →
        computeStructuralHashes sh a = computeStructuralHashes sh b) ∧
      ∀ t u u' cs e s c c',
        canon (.mk t u cs e s c) = canon (.mk t u' cs e s c') := by
  constructor
  · intro a b hab
    rw [computeStructuralHashes_eq_hashCanon, computeStructuralHashes_eq_hashCanon, hab]
  · intro t u u' cs e s c c'
    rfl

/-- Witness for C4 (amended): one completion inserted once versus twice —
counts differ, canonical content agrees, fingerprints agree. -/
theorem c4_fingerprint_content_determined_witness :
    canon (buildTree [[5]] none).root = canon (buildTree [[5], [5]] none).root ∧
      computeStructuralHashes shWitness (buildTree [[5]] none).root =
        computeStructuralHashes shWitness (buildTree [[5], [5]] none).root :=
  ⟨rfl, (c4_fingerprint_content_determined shWitness).1 _ _ rfl⟩

/-- C6: fingerprints are invariant to insertion order: `[A,B]` then `[A,C]`
fingerprints the root identically to `[A,C]` then `[A,B]`; and in general
two nodes agreeing on token, flag, terminal score whose (child token, child
fingerprint) lists are permutations of each other (child keys are distinct)
fingerprint identically, because children are sorted by token id before
hashing. -/
theorem c6_fingerprint_insertion_order_invariant (sh : HashComponents → Int) :
    (∀ a b c : Int,
        computeStructuralHashes sh (buildTree [[a, b], [a, c]] none).root =
          computeStructuralHashes sh (buildTree [[a, c], [a, b]] none).root) ∧
      ∀ n1 n2 : TreeNode,
        n1.token_id = n2.token_id →
        n1.is_end_of_completion = n2.is_end_of_completion →
        (n1.is_end_of_completion = true → n1.score = n2.score) →
        (n1.children.map Prod.fst).Nodup →
        (childHashList sh n1.children).Perm (childHashList sh n2.children) →
        computeStructuralHashes sh n1 = computeStructuralHashes sh n2 := by
  constructor
  · intro a b c
    by_cases hbc : b = c
    · subst hbc
      rfl
    · have hcb : ¬c = b := fun hh => hbc hh.symm
      have h1 : (buildTree [[a, b], [a, c]] none).root =
          .mk .root 0 [(a, .mk (.id a) 1 [(b, .mk (.id b) 2 [] true none 1),
            (c, .mk (.id c) 3 [] true none 1)] false none 2)] false none 2 := by
        simp [buildTree, insertAll, insertCompletion, headScore, tailScores, newChild,
          TreeNode.bump, lookupChild, setChild, hbc]
      have h2 : (buildTree [[a, c], [a, b]] none).root =
          .mk .root 0 [(a, .mk (.id a) 1 [(c, .mk (.id c) 2 [] true none 1),
            (b, .mk (.id b) 3 [] true none 1)] false none 2)] false none 2 := by
        simp [buildTree, insertAll, insertCompletion, headScore, tailScores, newChild,
          TreeNode.bump, lookupChild, setChild, hcb]
      rw [h1, h2]
      have hA : computeStructuralHashes sh
          (.mk (.id a) 1 [(b, .mk (.id b) 2 [] true none 1),
            (c, .mk (.id c) 3 [] true none 1)] false none 2) =
          computeStructuralHashes sh
          (.mk (.id a) 1 [(c, .mk (.id c) 2 [] true none 1),
            (b, .mk (.id b) 3 [] true none 1)] false none 2) := by
        apply hash_eq_of_children_perm sh
        · rfl
        · rfl
        · intro hcontr
          simp at hcontr
        · simp [hbc]
        · simp only [childHashList]
          exact List.Perm.swap
            (c, computeStructuralHashes sh (.mk (.id c) 3 [] true none 1))
            (b, computeStructuralHashes sh (.mk (.id b) 2 [] true none 1)) []
      have unfold1 : ∀ A : TreeNode,
          computeStructuralHashes sh (.mk .root 0 [(a, A)] false none 2) =
            sh ⟨.root, false, none,
              sortByTokenId [(a, computeStructuralHashes sh A)]⟩ := fun A => rfl
      rw [unfold1, unfold1, hA]
  · intro n1 n2 ht he hs hnd hperm
    exact hash_eq_of_children_perm sh n1 n2 ht he hs hnd hperm

/-- Witness for C6's general part: two concrete two-child nodes with swapped
child order and the injective witness hash. -/
theorem c6_fingerprint_insertion_order_invariant_witness :
    computeStructuralHashes shWitness
        (.mk (.id 0) 7 [(1, .mk (.id 1) 8 [] true none 1),
          (2, .mk (.id 2) 9 [] true none 1)] false none 2) =
      computeStructuralHashes shWitness
        (.mk (.id 0) 4 [(2, .mk (.id 2) 5 [] true none 1),
          (1, .mk (.id 1) 6 [] true none 1)] false none 2) :=
  (c6_fingerprint_insertion_order_invariant shWitness).2 _ _ rfl rfl
    (fun hcontr => by simp at hcontr) (by decide)
    (by simp only [childHashList]
        exact List.Perm.swap
          (2, computeStructuralHashes shWitness (.mk (.id 2) 9 [] true none 1))
          (1, computeStructuralHashes shWitness (.mk (.id 1) 8 [] true none 1)) [])

/-! ### The statistics pass -/

theorem sumChildStats_spec :
    ∀ (l : List (Int × TreeNode)) (acc : Nat × ℚ),
      sumChildStats acc l =
        (acc.1 + (l.map (fun kc => (computeLeafStats kc.2).1)).sum,
         acc.2 + (l.map (fun kc => (computeLeafStats kc.2).2)).sum)
  | [], acc => by simp [sumChildStats]
  | (k, c) :: rest, acc => by
      simp only [sumChildStats, List.map_cons, List.sum_cons]
      rw [sumChildStats_spec rest]
      simp only [Prod.mk.injEq]
      constructor
      · omega
      · ring

/-- A node the statistics pass never reaches keeps the initialized
`(0, 0.0)` in its stored fields. -/
theorem storedStats_of_not_reached :
    ∀ (p : List Int) (n : TreeNode), statsReached n p = false → storedStats n p = (0, 0)
  | [], n, h => by simp [statsReached] at h
  | t :: p', n, h => by
      simp only [statsReached] at h
      simp only [storedStats]
      by_cases he : n.is_end_of_completion = true
      · rw [if_pos he]
      · rw [if_neg he] at h ⊢
        cases hl : lookupChild n.children t with
        | some c =>
            rw [hl] at h
            exact storedStats_of_not_reached p' c h
        | none => rfl

/-- A node the statistics pass reaches stores the pair the call on it
returns, the pure `computeLeafStats` of its subtree. -/
theorem storedStats_of_reached :
    ∀ (p : List Int) (n m : TreeNode), statsReached n p = true → nodeAt n p = some m →
      storedStats n p = computeLeafStats m
  | [], n, m, _, hm => by
      simp only [nodeAt_nil, Option.some.injEq] at hm
      subst hm
      rfl
  | t :: p', n, m, hr, hm => by
      simp only [statsReached] at hr
      simp only [storedStats]
      rw [nodeAt_cons] at hm
      by_cases he : n.is_end_of_completion = true
      · rw [if_pos he] at hr
        exact absurd hr (by simp)
      · rw [if_neg he] at hr
        rw [if_neg he]
        cases hl : lookupChild n.children t with
        | some c =>
            rw [hl] at hr hm
            simp only [Option.some_bind] at hm
            exact storedStats_of_reached p' c m hr hm
        | none =>
            rw [hl] at hr
            simp at hr

/-- The pass continues from a reached non-terminal node into each of its
children. -/
theorem statsReached_child :
    ∀ (p : List Int) (n m : TreeNode) (k : Int) (c : TreeNode),
      statsReached n p = true → nodeAt n p = some m →
      m.is_end_of_completion = false → lookupChild m.children k = some c →
      statsReached n (p ++ [k]) = true
  | [], n, m, k, c, _, hm, hme, hl => by
      simp only [nodeAt_nil, Option.some.injEq] at hm
      subst hm
      simp [statsReached, hme, hl]
  | t :: p', n, m, k, c, hr, hm, hme, hl => by
      simp only [statsReached] at hr
      rw [nodeAt_cons] at hm
      by_cases he : n.is_end_of_completion = true
      · rw [if_pos he] at hr
        exact absurd hr (by simp)
      · rw [if_neg he] at hr
        rw [List.cons_append]
        simp only [statsReached]
        rw [if_neg he]
        cases hl2 : lookupChild n.children t with
        | some c2 =>
            rw [hl2] at hr hm
            simp only [Option.some_bind] at hm
            exact statsReached_child p' c2 m k c hr hm hme hl
        | none =>
            rw [hl2] at hr
            simp at hr

/-- C2 counterexample: in `[[1], [1, 2]]` the node at `[1, 2]` is terminal
but lies strictly below the terminal node at `[1]`, so `_compute_leaf_stats`
(which treats terminal nodes as pure base cases and never recurses into
their children) never visits it: its stored statistics stay the initialized
`(0, 0)` instead of the `(1, 0)` the claim asserts for a terminal node. -/
theorem c2_buried_terminal_keeps_init :
    endAt (buildTree [[1], [1, 2]] none).root [1, 2] = true ∧
      statsReached (buildTree [[1], [1, 2]] none).root [1, 2] = false ∧
      storedStats (buildTree [[1], [1, 2]] none).root [1, 2] = (0, 0) ∧
      ((0, 0) : Nat × ℚ) ≠ ((1 : Nat), (0 : ℚ)) := by
  refine ⟨rfl, rfl, rfl, ?_⟩
  intro hcontr
  have h1 := congrArg Prod.fst hcontr
  simp at h1

/-- C2 (amended): after the statistics pass, for every node of a built tree
that the pass reaches (no terminal proper ancestor): a terminal node's
stored pair is exactly `(1, its own score or 0)` — its children's
statistics are not folded in even when it has children — and a non-terminal
node's stored pair is the element-wise sum of its direct children's stored
pairs.  A node the pass does not reach (strictly below a terminal node)
keeps the initialized `(0, 0)`. -/
theorem c2_stored_stats_recurrence (cs : List (List Int)) (ss : Option (List ℚ))
    (p : List Int) (n : TreeNode) (h : nodeAt (buildTree cs ss).root p = some n) :
    (statsReached (buildTree cs ss).root p = true →
        (n.is_end_of_completion = true →
            storedStats (buildTree cs ss).root p = (1, n.score.getD 0)) ∧
        (n.is_end_of_completion = false →
            storedStats (buildTree cs ss).root p =
              ((n.children.map
                  (fun kc => (storedStats (buildTree cs ss).root (p ++ [kc.1])).1)).sum,
               (n.children.map
                  (fun kc => (storedStats (buildTree cs ss).root (p ++ [kc.1])).2)).sum))) ∧
      (statsReached (buildTree cs ss).root p = false →
        storedStats (buildTree cs ss).root p = (0, 0)) := by
  constructor
  · intro hreach
    have hstored : storedStats (buildTree cs ss).root p = computeLeafStats n :=
      storedStats_of_reached p _ n hreach h
    have hnd : (n.children.map Prod.fst).Nodup := by
      have hk := buildTree_keysAt_nodup cs ss p
      simpa [keysAt, h] using hk
    constructor
    · intro he
      rw [hstored]
      obtain ⟨t, u, cs', e, s, c⟩ := n
      simp only [TreeNode.is_end_of_completion_mk] at he
      subst he
      simp only [computeLeafStats, if_pos, TreeNode.score_mk]
      cases s <;> rfl
    · intro he
      have hchild : ∀ kc ∈ n.children,
          storedStats (buildTree cs ss).root (p ++ [kc.1]) = computeLeafStats kc.2 := by
        intro kc hkc
        obtain ⟨k, child⟩ := kc
        have hlk : lookupChild n.children k = some child :=
          lookupChild_eq_some_of_mem n.children k child hnd hkc
        have hat : nodeAt (buildTree cs ss).root (p ++ [k]) = some child :=
          nodeAt_child h hnd k child hkc
        have hr2 : statsReached (buildTree cs ss).root (p ++ [k]) = true :=
          statsReached_child p _ n k child hreach h he hlk
        exact storedStats_of_reached (p ++ [k]) _ child hr2 hat
      have hmap1 : n.children.map
            (fun kc => (storedStats (buildTree cs ss).root (p ++ [kc.1])).1) =
          n.children.map (fun kc => (computeLeafStats kc.2).1) :=
        List.map_congr_left (fun kc hkc => by rw [hchild kc hkc])
      have hmap2 : n.children.map
            (fun kc => (storedStats (buildTree cs ss).root (p ++ [kc.1])).2) =
          n.children.map (fun kc => (computeLeafStats kc.2).2) :=
        List.map_congr_left (fun kc hkc => by rw [hchild kc hkc])
      rw [hstored, hmap1, hmap2]
      obtain ⟨t, u, cs', e, s, c⟩ := n
      simp only [TreeNode.is_end_of_completion_mk] at he
      subst he
      simp only [computeLeafStats, Bool.false_eq_true, if_neg, TreeNode.children_mk]
      rw [sumChildStats_spec]
      simp
  · intro hnot
    exact storedStats_of_not_reached p _ hnot

/-- Witness for C2 (amended) at the reached terminal-with-a-child node `[1]`
of `[[1], [1, 2]]`: the stored pair is `(1, 0)`, not folding the child in. -/
theorem c2_stored_stats_recurrence_witness :
    storedStats (buildTree [[1], [1, 2]] none).root [1] =
      (1, (TreeNode.mk (.id 1) 1 [(2, .mk (.id 2) 2 [] true none 1)] true none 2).score.getD
        0) :=
  ((c2_stored_stats_recurrence [[1], [1, 2]] none [1] _ rfl).1 rfl).1 rfl

/-- C5 counterexample: a scored tree (`has_scores` true) in which the
terminal node at `[1, 2]` — a descendant leaf of itself — is buried below
the terminal node `[1]`, so its stored `descendant_leaf_count` is the
unvisited 0 and the query returns `None`, not the claimed average. -/
theorem c5_buried_terminal_query_none :
    (buildTree [[1], [1, 2]] (some [1, 1])).has_scores = true ∧
      endAt (buildTree [[1], [1, 2]] (some [1, 1])).root [1, 2] = true ∧
      get_node_score_percentage_at (buildTree [[1], [1, 2]] (some [1, 1])) [1, 2] = none := by
  refine ⟨rfl, rfl, ?_⟩
  have hz : (storedStats (buildTree [[1], [1, 2]] (some [1, 1])).root [1, 2]).1 = 0 := rfl
  simp [get_node_score_percentage_at, hz]

/-- C5 (amended): the aggregate-score query returns
`descendant_score_sum / descendant_leaf_count` as read from the node's
stored fields exactly when the tree was built with a score list and the
stored `descendant_leaf_count` is nonzero, and the distinguished absent
value in every other case — never zero as a substitute.  For a node the
statistics pass does not reach (one strictly below a terminal node) the
stored count is the initialized 0, so the query returns the absent value
even though such a node has descendant leaves; the root of an empty batch
also gets the absent value. -/
theorem c5_stored_score_percentage (cs : List (List Int)) (ss : Option (List ℚ))
    (p : List Int) :
    (get_node_score_percentage_at (buildTree cs ss) p =
        if ss.isSome ∧ (storedStats (buildTree cs ss).root p).1 ≠ 0 then
          some ((storedStats (buildTree cs ss).root p).2 /
            ((storedStats (buildTree cs ss).root p).1 : ℚ))
        else none) ∧
      (statsReached (buildTree cs ss).root p = false →
        get_node_score_percentage_at (buildTree cs ss) p = none) ∧
      get_node_score_percentage_at (buildTree [] ss) [] = none := by
  refine ⟨?_, ?_, ?_⟩
  · have hhs : (buildTree cs ss).has_scores = ss.isSome := rfl
    simp only [get_node_score_percentage_at, hhs]
    by_cases h1 : ss.isSome <;>
      by_cases h2 : (storedStats (buildTree cs ss).root p).1 = 0 <;>
      simp [h1, h2]
  · intro hnot
    have hz := storedStats_of_not_reached p (buildTree cs ss).root hnot
    simp [get_node_score_percentage_at, hz]
  · have hz : storedStats (buildTree [] ss).root [] = (0, 0) := rfl
    simp [get_node_score_percentage_at, hz]

/-- Witness for C5 (amended): the unreached-node hypothesis discharged at
the buried terminal `[1, 2]` of `[[1], [1, 2]]`. -/
theorem c5_stored_score_percentage_witness :
    get_node_score_percentage_at (buildTree [[1], [1, 2]] none) [1, 2] = none :=
  (c5_stored_score_percentage [[1], [1, 2]] none [1, 2]).2.1 rfl

/-! ### Score-list tolerance and the frame effect of unscored terminations -/

/-- C7: a score list shorter than the completion list does not fail: every
completion is inserted and its end node is marked terminal, and the score
stored at any path is the last one assigned by an in-bounds (scored)
completion ending there — in-bounds terminations overwrite (last wins),
out-of-bounds terminations assign nothing. -/
theorem c7_short_scores_tolerated (cs : List (List Int)) (ss : List ℚ)
    (hshort : ss.length < cs.length) :
    (∀ p, scoreAt (buildTree cs (some ss)).root p =
        lastAssigned p (assignedScores cs (some ss))) ∧
      ∀ c ∈ cs, (nodeAt (buildTree cs (some ss)).root c).isSome ∧
        endAt (buildTree cs (some ss)).root c = true := by
  constructor
  · intro p
    exact buildTree_scoreAt cs (some ss) p
  · intro c hc
    constructor
    · rw [buildTree_nodeAt_isSome]
      have hany : cs.any (fun c' => c.isPrefixOf c') = true :=
        List.any_eq_true.mpr ⟨c, hc, (List.isPrefixOf_iff_prefix).mpr (List.prefix_refl c)⟩
      simp [hany]
    · rw [buildTree_endAt]
      simp [hc]

/-- Witness for C7: two completions, one score. -/
theorem c7_short_scores_tolerated_witness :
    (∀ p, scoreAt (buildTree [[1], [2]] (some [1])).root p =
        lastAssigned p (assignedScores [[1], [2]] (some [1]))) ∧
      ∀ c ∈ ([[1], [2]] : List (List Int)),
        (nodeAt (buildTree [[1], [2]] (some [1])).root c).isSome ∧
          endAt (buildTree [[1], [2]] (some [1])).root c = true :=
  c7_short_scores_tolerated [[1], [2]] [1] (by decide)

theorem assignedScores_append_exhausted :
    ∀ (cs : List (List Int)) (ss : List ℚ), ss.length ≤ cs.length → ∀ d : List Int,
      assignedScores (cs ++ [d]) (some ss) =
        assignedScores cs (some ss) ++ [(d, none)]
  | [], ss, hb, d => by
      have hss : ss = [] := List.length_eq_zero.mp (Nat.le_zero.mp (by simpa using hb))
      subst hss
      simp [assignedScores, headScore, tailScores]
  | c :: cs', ss, hb, d => by
      simp only [List.cons_append, assignedScores, tailScores, List.append_eq]
      rw [assignedScores_append_exhausted cs' ss.tail
        (by rw [List.length_tail]; simp at hb; omega) d]

/-- C10: a later completion whose index is out of bounds of the score array
and which terminates at an already-scored node leaves that node's score
unchanged, and the node is (still) terminal; only in-bounds scored
terminations modify the score field. -/
theorem c10_out_of_bounds_preserves_score (cs : List (List Int)) (ss : List ℚ)
    (p : List Int) (v : ℚ) (hb : ss.length ≤ cs.length)
    (hv : scoreAt (buildTree cs (some ss)).root p = some v) :
    scoreAt (buildTree (cs ++ [p]) (some ss)).root p = some v ∧
      endAt (buildTree (cs ++ [p]) (some ss)).root p = true := by
  constructor
  · rw [buildTree_scoreAt, assignedScores_append_exhausted cs ss hb p]
    rw [buildTree_scoreAt] at hv
    simp only [lastAssigned, List.foldl_append, List.foldl_cons, List.foldl_nil]
    simp only [lastAssigned] at hv
    simp [hv]
  · rw [buildTree_endAt]
    simp

/-- Witness for C10: `[3]` scored 1, then `[3]` again with no score left. -/
theorem c10_out_of_bounds_preserves_score_witness :
    scoreAt (buildTree ([[3]] ++ [[3]]) (some [1])).root [3] = some 1 ∧
      endAt (buildTree ([[3]] ++ [[3]]) (some [1])).root [3] = true :=
  c10_out_of_bounds_preserves_score [[3]] [1] [3] 1 (by decide) rfl

/-! ### Recursion depth of the post-order passes -/

theorem passDepth_insert_chain :
    ∀ (ts : List Int) (t : Token) (u : Nat) (e : Bool) (s : Option ℚ) (c ctr : Nat)
      (a : Option ℚ),
      passDepth (insertCompletion (.mk t u [] e s c) ts a ctr).1 = ts.length + 1
  | [], t, u, e, s, c, ctr, a => by
      simp [insertCompletion, passDepth, childrenDepth]
  | tok :: rest, t, u, e, s, c, ctr, a => by
      simp only [insertCompletion, lookupChild]
      have hrec := passDepth_insert_chain rest (.id tok) ctr false none 1 (ctr + 1) a
      simp only [passDepth, childrenDepth, List.nil_append]
      rw [show (newChild tok ctr).bump = .mk (.id tok) ctr [] false none 1 from rfl]
      rw [hrec]
      simp [List.length_cons]
      omega

/-- C9 (documents the code bug): the recursion depth of either post-order
pass on the tree built from a single completion of length `k` is exactly
`k + 1` — linear in the input and unbounded, so a deep enough input
exceeds any fixed interpreter recursion limit (CPython defaults to 1000),
contradicting the required absence of recursion-depth failure. -/
theorem c9_pass_depth_unbounded (ts : List Int) :
    passDepth (buildTree [ts] none).root = ts.length + 1 := by
  show passDepth (insertAll (.mk .root 0 [] false none 1) [ts] none 1).1 = ts.length + 1
  simp only [insertAll]
  exact passDepth_insert_chain ts .root 0 false none 1 1 none

/-! ### Root percentage under fully scored, prefix-free, duplicate-free input -/

theorem countP_eq_one_of_nodup_mem :
    ∀ (l : List (List Int)) (a : List Int), l.Nodup → a ∈ l →
      l.countP (fun c => c = a) = 1
  | [], a, _, hmem => by simp at hmem
  | b :: l', a, hnd, hmem => by
      simp only [List.nodup_cons] at hnd
      rcases List.mem_cons.mp hmem with h | h
      · have hz : l'.countP (fun c => c = a) = 0 :=
          List.countP_eq_zero.mpr (fun c hc => by
            simp only [decide_eq_true_eq]
            intro hca
            exact hnd.1 (h ▸ hca ▸ hc))
        rw [List.countP_cons]
        simp [hz, h.symm]
      · have hba : ¬(b = a) := fun he => hnd.1 (he ▸ h)
        rw [List.countP_cons]
        simp [hba, countP_eq_one_of_nodup_mem l' a hnd.2 h]

/-- Completions listed by `assignedScores`, in order. -/
theorem assignedScores_map_fst :
    ∀ (cs : List (List Int)) (ss : Option (List ℚ)),
      (assignedScores cs ss).map Prod.fst = cs
  | [], _ => rfl
  | c :: cs', ss => by
      simp only [assignedScores, List.map_cons, List.cons.injEq, true_and]
      exact assignedScores_map_fst cs' (tailScores ss)

/-- With a score list at least as long as the completion list, every
completion is paired with a score. -/
theorem assignedScores_all_isSome :
    ∀ (cs : List (List Int)) (ss : List ℚ), cs.length ≤ ss.length →
      ∀ a ∈ assignedScores cs (some ss), a.2.isSome
  | [], ss, _, a, ha => by simp [assignedScores] at ha
  | c :: cs', ss, hlen, a, ha => by
      cases ss with
      | nil => simp at hlen
      | cons v ss' =>
          simp only [assignedScores, headScore, tailScores, List.mem_cons] at ha
          rcases ha with h | h
          · simp [h]
          · exact assignedScores_all_isSome cs' ss' (by simpa using hlen) a (by simpa using h)

/-- With matching lengths, the assigned scores sum to the score list's sum. -/
theorem assignedScores_sum :
    ∀ (cs : List (List Int)) (ss : List ℚ), cs.length = ss.length →
      ((assignedScores cs (some ss)).map (fun a => a.2.getD 0)).sum = ss.sum
  | [], ss, hlen => by
      cases ss with
      | nil => rfl
      | cons v ss' => simp at hlen
  | c :: cs', ss, hlen => by
      cases ss with
      | nil => simp at hlen
      | cons v ss' =>
          simp only [assignedScores, headScore, tailScores, List.map_cons, List.sum_cons,
            List.tail_cons, Option.getD_some, List.sum_cons]
          rw [assignedScores_sum cs' ss' (by simpa using hlen)]

/-- Once no remaining entry terminates at `p`, the score fold is constant. -/
theorem lastAssigned_fold_const :
    ∀ (l : List (List Int × Option ℚ)) (p : List Int),
      (∀ a ∈ l, ¬(a.1 = p)) → ∀ acc,
        l.foldl (fun acc ca =>
          if ca.1 = p then (match ca.2 with | some v => some v | none => acc) else acc) acc = acc
  | [], p, _, acc => rfl
  | a :: l', p, hnone, acc => by
      simp only [List.foldl_cons, if_neg (hnone a (by simp))]
      exact lastAssigned_fold_const l' p (fun b hb => hnone b (by simp [hb])) acc

/-- At a path where exactly one listed completion terminates, and no other
even extends it, the stored score is that completion's assignment and the
prefix-filtered score sum is its value. -/
theorem lastAssigned_and_sum_of_unique :
    ∀ (l : List (List Int × Option ℚ)) (p : List Int),
      l.countP (fun a => a.1 = p) = 1 →
      (∀ a ∈ l, p.isPrefixOf a.1 → a.1 = p) →
      (∀ a ∈ l, a.2.isSome) →
      ∃ w : ℚ, lastAssigned p l = some w ∧
        (l.map (fun a => if p.isPrefixOf a.1 then a.2.getD 0 else 0)).sum = w
  | [], p, hcount, _, _ => by simp at hcount
  | a :: l', p, hcount, hpre, hsome => by
      rw [List.countP_cons] at hcount
      simp only [decide_eq_true_eq] at hcount
      by_cases ha : a.1 = p
      · have hz : l'.countP (fun a => a.1 = p) = 0 := by
          rw [if_pos ha] at hcount
          omega
        have hrestnone : ∀ b ∈ l', ¬(b.1 = p) := by
          intro b hb
          have := List.countP_eq_zero.mp hz b hb
          simpa using this
        obtain ⟨w, hw⟩ := Option.isSome_iff_exists.mp (hsome a (by simp))
        refine ⟨w, ?_, ?_⟩
        · simp only [lastAssigned, List.foldl_cons, if_pos ha, hw]
          exact lastAssigned_fold_const l' p hrestnone (some w)
        · have hz2 : ∀ b ∈ l', (if p.isPrefixOf b.1 then b.2.getD 0 else 0) =
              (fun _ : List Int × Option ℚ => (0:ℚ)) b := by
            intro b hb
            have : ¬(p.isPrefixOf b.1) := fun hpb => hrestnone b hb (hpre b (by simp [hb]) hpb)
            simp [this]
          simp only [List.map_cons, List.sum_cons]
          rw [List.map_congr_left hz2]
          have hpa : p.isPrefixOf a.1 := by
            rw [ha]
            exact (List.isPrefixOf_iff_prefix).mpr (List.prefix_refl p)
          simp [hpa, hw]
      · have hc' : l'.countP (fun a => a.1 = p) = 1 := by
          rw [if_neg ha] at hcount
          omega
        obtain ⟨w, hw1, hw2⟩ := lastAssigned_and_sum_of_unique l' p hc'
          (fun b hb hpb => hpre b (by simp [hb]) hpb)
          (fun b hb => hsome b (by simp [hb]))
        refine ⟨w, ?_, ?_⟩
        · simp only [lastAssigned, List.foldl_cons, if_neg ha]
          simpa [lastAssigned] using hw1
        · have hna : ¬(p.isPrefixOf a.1) := fun hpb => ha (hpre a (by simp) hpb)
          simp only [List.map_cons, List.sum_cons, if_neg hna, zero_add]
          exact hw2

/-- Statistics of every node of a tree built from duplicate-free, prefix-free
completions, all of which are scored: the descendant leaf count is the number
of completions extending the node's path and the score sum is the sum of
their scores. -/
theorem stats_of_antichain (cs : List (List Int)) (ss : List ℚ)
    (hlen : cs.length = ss.length) (hnd : cs.Nodup)
    (hac : ∀ c1 ∈ cs, ∀ c2 ∈ cs, c1.isPrefixOf c2 → c1 = c2) :
    ∀ n, ∀ p, nodeAt (buildTree cs (some ss)).root p = some n →
      computeLeafStats n =
        (cs.countP (fun c => p.isPrefixOf c),
         ((assignedScores cs (some ss)).map
           (fun a => if p.isPrefixOf a.1 then a.2.getD 0 else 0)).sum) := by
  intro n
  induction n using TreeNode.strongInd with
  | ih t u cs' e s c ihc =>
      intro p h
      have hend : e = decide (p ∈ cs) := by
        have hct := buildTree_endAt cs (some ss) p
        rw [endAt, h] at hct
        simpa using hct
      have hkeys : keysAt (buildTree cs (some ss)).root p = cs'.map Prod.fst := by
        simp [keysAt, h]
      have hndk : (cs'.map Prod.fst).Nodup := by
        rw [← hkeys]
        exact buildTree_keysAt_nodup cs (some ss) p
      by_cases hp : p ∈ cs
      · have he : e = true := by
          rw [hend]
          simp [hp]
        subst he
        have hscore : s = lastAssigned p (assignedScores cs (some ss)) := by
          have hsc := buildTree_scoreAt cs (some ss) p
          rw [scoreAt, h] at hsc
          simpa using hsc
        have hcp1 : cs.countP (fun c => p.isPrefixOf c) = 1 := by
          have hcong : ∀ c ∈ cs,
              ((fun c => p.isPrefixOf c) c = true) ↔ ((fun c => decide (c = p)) c = true) := by
            intro c hc
            simp only [decide_eq_true_eq]
            constructor
            · intro hpc
              exact (hac p hp c hc hpc).symm
            · intro hcp
              rw [hcp]
              exact (List.isPrefixOf_iff_prefix).mpr (List.prefix_refl p)
          rw [List.countP_congr hcong]
          exact countP_eq_one_of_nodup_mem cs p hnd hp
        have hl1 : (assignedScores cs (some ss)).countP (fun a => a.1 = p) = 1 := by
          have h1 : cs.countP (fun c => c = p) = 1 := countP_eq_one_of_nodup_mem cs p hnd hp
          rw [← assignedScores_map_fst cs (some ss), List.countP_map] at h1
          exact h1
        have hpre' : ∀ a ∈ assignedScores cs (some ss), p.isPrefixOf a.1 → a.1 = p := by
          intro a ha hpa
          have hfst : a.1 ∈ cs := by
            rw [← assignedScores_map_fst cs (some ss)]
            exact List.mem_map.mpr ⟨a, ha, rfl⟩
          exact (hac p hp a.1 hfst hpa).symm
        have hsome' := assignedScores_all_isSome cs ss (le_of_eq hlen)
        obtain ⟨w, hw1, hw2⟩ := lastAssigned_and_sum_of_unique _ p hl1 hpre' hsome'
        have hs_eq : s = some w := by rw [hscore, hw1]
        subst hs_eq
        rw [hcp1, hw2]
        rfl
      · have he : e = false := by
          rw [hend]
          simp [hp]
        subst he
        have hstats : computeLeafStats (.mk t u cs' false s c) =
            ((cs'.map (fun kc => (computeLeafStats kc.2).1)).sum,
             (cs'.map (fun kc => (computeLeafStats kc.2).2)).sum) := by
          simp only [computeLeafStats, Bool.false_eq_true, if_false]
          rw [sumChildStats_spec]
          simp
        rw [hstats]
        have hcovN : ∀ a ∈ cs, ∀ tk r2, (id a : List Int) = p ++ tk :: r2 →
            tk ∈ cs'.map Prod.fst := by
          intro a ha tk r2 hdec
          simp only [id] at hdec
          have hex : (nodeAt (buildTree cs (some ss)).root (p ++ [tk])).isSome := by
            rw [buildTree_nodeAt_isSome]
            have hpre : (p ++ [tk]) <+: a := by
              rw [hdec]
              exact (List.prefix_append_right_inj p).mpr
                (List.cons_prefix_cons.mpr ⟨rfl, List.nil_prefix⟩)
            have hany : cs.any (fun c => (p ++ [tk]).isPrefixOf c) = true :=
              List.any_eq_true.mpr ⟨a, ha, (List.isPrefixOf_iff_prefix).mpr hpre⟩
            simp [hany]
          have hmem := (mem_keysAt_iff _ p tk).mpr hex
          rw [hkeys] at hmem
          exact hmem
        have hcovQ : ∀ a ∈ assignedScores cs (some ss), ∀ tk r2,
            (fun a : List Int × Option ℚ => a.1) a = p ++ tk :: r2 →
            tk ∈ cs'.map Prod.fst := by
          intro a ha tk r2 hdec
          have hfst : a.1 ∈ cs := by
            rw [← assignedScores_map_fst cs (some ss)]
            exact List.mem_map.mpr ⟨a, ha, rfl⟩
          exact hcovN a.1 hfst tk r2 hdec
        have hsplitN := prefix_sum_split (α := List Int) (M := ℕ) p id (fun _ => 1)
          (cs'.map Prod.fst) hndk cs hcovN
        have hsplitQ := prefix_sum_split (α := List Int × Option ℚ) (M := ℚ) p
          (fun a => a.1) (fun a => a.2.getD 0) (cs'.map Prod.fst) hndk
          (assignedScores cs (some ss)) hcovQ
        simp only [id] at hsplitN
        rw [← countP_eq_sum_ite cs (fun c => p.isPrefixOf c)] at hsplitN
        have hmidN : (cs.map (fun c => if c = p then 1 else 0)).sum = 0 := by
          have hz : ∀ c ∈ cs, (if c = p then 1 else 0) = (fun _ : List Int => (0:ℕ)) c := by
            intro c hc
            have : c ≠ p := fun he => hp (he ▸ hc)
            simp [this]
          rw [List.map_congr_left hz]
          simp
        have hmidQ : ((assignedScores cs (some ss)).map
            (fun a => if a.1 = p then a.2.getD 0 else 0)).sum = 0 := by
          have hz : ∀ a ∈ assignedScores cs (some ss),
              (if a.1 = p then a.2.getD 0 else 0) =
                (fun _ : List Int × Option ℚ => (0:ℚ)) a := by
            intro a ha
            have hfst : a.1 ∈ cs := by
              rw [← assignedScores_map_fst cs (some ss)]
              exact List.mem_map.mpr ⟨a, ha, rfl⟩
            have : a.1 ≠ p := fun he => hp (he ▸ hfst)
            simp [this]
          rw [List.map_congr_left hz]
          simp
        have hthirdN : (cs'.map Prod.fst).map
            (fun tk => (cs.map (fun c => if (p ++ [tk]).isPrefixOf c then 1 else 0)).sum) =
            cs'.map (fun kc => (computeLeafStats kc.2).1) := by
          rw [List.map_map]
          apply List.map_congr_left
          intro kc hkc
          obtain ⟨k, child⟩ := kc
          have hchild : nodeAt (buildTree cs (some ss)).root (p ++ [k]) = some child :=
            nodeAt_child h hndk k child hkc
          have hih := ihc (k, child) hkc (p ++ [k]) hchild
          simp only [Function.comp_apply]
          rw [hih, ← countP_eq_sum_ite]
        have hthirdQ : (cs'.map Prod.fst).map
            (fun tk => ((assignedScores cs (some ss)).map
              (fun a => if (p ++ [tk]).isPrefixOf a.1 then a.2.getD 0 else 0)).sum) =
            cs'.map (fun kc => (computeLeafStats kc.2).2) := by
          rw [List.map_map]
          apply List.map_congr_left
          intro kc hkc
          obtain ⟨k, child⟩ := kc
          have hchild : nodeAt (buildTree cs (some ss)).root (p ++ [k]) = some child :=
            nodeAt_child h hndk k child hkc
          have hih := ihc (k, child) hkc (p ++ [k]) hchild
          simp only [Function.comp_apply]
          rw [hih]
        rw [hsplitN, hsplitQ, hmidN, hmidQ]
        rw [congrArg List.sum hthirdN, congrArg List.sum hthirdQ]
        simp

/-- C8 counterexample: `[[1], [1]]` with scores `[1, 0]` — every sequence is
scored and no sequence is a strict prefix of another, yet the two duplicate
sequences collapse to one leaf whose score is the last one assigned, so the
root percentage is 0 while the mean of the supplied scores is 1/2. -/
theorem c8_fails_with_duplicates :
    (∀ c1 ∈ ([[1], [1]] : List (List Int)), ∀ c2 ∈ ([[1], [1]] : List (List Int)),
        c1 ≠ c2 → ¬(c1 <+: c2)) ∧
      ([1, 0] : List ℚ).length = ([[1], [1]] : List (List Int)).length ∧
      get_node_score_percentage (buildTree [[1], [1]] (some [1, 0]))
          (buildTree [[1], [1]] (some [1, 0])).root = some 0 ∧
      some (0 : ℚ) ≠ some (((1 : ℚ) + 0) / 2) := by
  refine ⟨?_, rfl, ?_, ?_⟩
  · intro c1 h1 c2 h2 hne12
    simp only [List.mem_cons, List.not_mem_nil, or_false] at h1 h2
    rcases h1 with h1 | h1 <;> rcases h2 with h2 | h2 <;>
      exact absurd (h1.trans h2.symm) hne12
  · have htree : buildTree [[1], [1]] (some [1, 0]) =
        ⟨.mk .root 0 [(1, .mk (.id 1) 1 [] true (some 0) 2)] false none 2, true, 2⟩ := rfl
    rw [htree]
    have hstats : computeLeafStats
        (TreeNode.mk .root 0 [(1, .mk (.id 1) 1 [] true (some 0) 2)] false none 2) =
          (1, 0) := by
      simp [computeLeafStats, sumChildStats]
    simp [get_node_score_percentage, TreeNode.descendant_leaf_count,
      TreeNode.descendant_score_sum, hstats]
  · intro hcontr
    rw [Option.some.injEq] at hcontr
    norm_num at hcontr

/-- C8 (amended): when every sequence is scored (same-length score list),
the sequences are pairwise distinct, and no sequence is a prefix of another,
the root's aggregate score percentage is exactly the arithmetic mean of the
supplied scores.  (Distinctness is forced by the counterexample above:
duplicate sequences merge into one leaf and only the last score survives.) -/
theorem c8_root_percentage_is_mean (cs : List (List Int)) (ss : List ℚ)
    (hlen : cs.length = ss.length) (hne : cs ≠ []) (hnd : cs.Nodup)
    (hac : ∀ c1 ∈ cs, ∀ c2 ∈ cs, c1.isPrefixOf c2 → c1 = c2) :
    get_node_score_percentage (buildTree cs (some ss)) (buildTree cs (some ss)).root =
      some (ss.sum / (cs.length : ℚ)) := by
  have hroot := stats_of_antichain cs ss hlen hnd hac (buildTree cs (some ss)).root [] rfl
  have hcnt : cs.countP (fun c => ([] : List Int).isPrefixOf c) = cs.length :=
    List.countP_eq_length.mpr (fun c _ => by simp [List.isPrefixOf])
  have hsum : ((assignedScores cs (some ss)).map
      (fun a => if ([] : List Int).isPrefixOf a.1 then a.2.getD 0 else 0)).sum = ss.sum := by
    have hz : ∀ a ∈ assignedScores cs (some ss),
        (if ([] : List Int).isPrefixOf a.1 then a.2.getD 0 else 0) =
          (fun a : List Int × Option ℚ => a.2.getD 0) a := by
      intro a _
      simp [List.isPrefixOf]
    rw [List.map_congr_left hz]
    exact assignedScores_sum cs ss hlen
  rw [hcnt, hsum] at hroot
  have hlc : (buildTree cs (some ss)).root.descendant_leaf_count = cs.length := by
    simp [TreeNode.descendant_leaf_count, hroot]
  have hsc : (buildTree cs (some ss)).root.descendant_score_sum = ss.sum := by
    simp [TreeNode.descendant_score_sum, hroot]
  have hhs : (buildTree cs (some ss)).has_scores = true := rfl
  have hnz : cs.length ≠ 0 := fun hc => hne (List.length_eq_zero.mp hc)
  simp [get_node_score_percentage, hhs, hlc, hsc, hnz]

/-- Witness for C8 (amended): two distinct, prefix-free completions, both
scored. -/
theorem c8_root_percentage_is_mean_witness :
    get_node_score_percentage (buildTree [[1], [2]] (some [1, 0]))
        (buildTree [[1], [2]] (some [1, 0])).root =
      some (([1, 0] : List ℚ).sum / ((([[1], [2]] : List (List Int)).length : Nat) : ℚ)) :=
  c8_root_percentage_is_mean [[1], [2]] [1, 0] rfl (by decide) (by decide)
    (by decide)
